import Mathlib

/-!
Shallow embedding of the crawl/discovery engine of `crawler_requests.py`
(scrapbee-app).  Pure helpers (`urlparse`, `parse_qs`, `normalize_ext`,
`looks_like_download_endpoint`, …) are translated directly; the network is
abstracted to an oracle (`World`), and the concurrent level-based BFS of
`crawl_requests_concurrent` is modelled as an explicit state machine whose
batch completion order is chosen by the oracle (a priority on URLs realises
every `as_completed` permutation).
-/

namespace Scrapbee

/-! ### String helpers (ASCII-level models of the Python str operations used) -/

/-- Boolean list-prefix test used by the substring check below. -/
def hasPrefixB : List Char → List Char → Bool
  | [], _ => true
  | _ :: _, [] => false
  | p :: ps, c :: cs => p == c && hasPrefixB ps cs

/-- Boolean "occurs as a contiguous substring" test (`pat in s` in Python). -/
def hasInfixB (pat : List Char) : List Char → Bool
  | [] => hasPrefixB pat []
  | c :: cs => hasPrefixB pat (c :: cs) || hasInfixB pat cs

/-- `pat in s` on strings. -/
def strContains (s pat : String) : Bool :=
  hasInfixB pat.toList s.toList

/-- `s.lower()` (ASCII). -/
def lowerStr (s : String) : String :=
  String.mk (s.toList.map Char.toLower)

/-- `s.endswith(suffix)`. -/
def endsWithStr (s suffix : String) : Bool :=
  hasPrefixB suffix.toList.reverse s.toList.reverse

/-- `s.strip()` (whitespace on both ends). -/
def stripStr (s : String) : String :=
  String.mk (((s.toList.dropWhile Char.isWhitespace).reverse.dropWhile
    Char.isWhitespace).reverse)

/-- Split on a separator character (`s.split(sep)` with a one-char separator). -/
def splitOnChar (sep : Char) : List Char → List (List Char)
  | [] => [[]]
  | c :: cs =>
    if c = sep then [] :: splitOnChar sep cs
    else
      match splitOnChar sep cs with
      | [] => [[c]]
      | g :: gs => (c :: g) :: gs

/-- Split a list at the first occurrence of `sep`; `none` if absent. -/
def splitFirst (sep : Char) : List Char → Option (List Char × List Char)
  | [] => none
  | c :: cs =>
    if c = sep then some ([], cs)
    else (splitFirst sep cs).map (fun p => (c :: p.1, p.2))

/-- Hex digit value, for percent-decoding. -/
def hexVal (c : Char) : Option Nat :=
  if '0' ≤ c ∧ c ≤ '9' then some (c.toNat - '0'.toNat)
  else if 'a' ≤ c ∧ c ≤ 'f' then some (c.toNat - 'a'.toNat + 10)
  else if 'A' ≤ c ∧ c ≤ 'F' then some (c.toNat - 'A'.toNat + 10)
  else none

/-- ASCII model of `urllib.parse.unquote`: decodes `%XX`, leaves a malformed
`%` alone (as CPython does). -/
def percentDecode : List Char → List Char
  | [] => []
  | '%' :: a :: b :: rest =>
    match hexVal a, hexVal b with
    | some x, some y => Char.ofNat (16 * x + y) :: percentDecode rest
    | _, _ => '%' :: percentDecode (a :: b :: rest)
  | c :: rest => c :: percentDecode rest

/-- `unquote(s.replace('+', ' '))`, the decoding `parse_qsl` applies to each
name and value. -/
def unquotePlus (s : String) : String :=
  String.mk (percentDecode (s.toList.map (fun c => if c = '+' then ' ' else c)))

/-! ### `urllib.parse.urlparse` (the fields this code uses) -/

structure UrlParts where
  scheme : String
  netloc : String
  path : String
  query : String
  fragment : String
  deriving Repr, DecidableEq

def isSchemeChar (c : Char) : Bool :=
  c.isAlphanum || c == '+' || c == '-' || c == '.'

/-- Split off `scheme:` when the part before the first `:` is a valid scheme
(letter first, then letters/digits/`+`/`-`/`.`); scheme is lowercased. -/
def splitScheme (cs : List Char) : String × List Char :=
  match splitFirst ':' cs with
  | none => ("", cs)
  | some (before, after) =>
    match before with
    | [] => ("", cs)
    | c :: rest =>
      if c.isAlpha && rest.all isSchemeChar then
        (String.mk ((c :: rest).map Char.toLower), after)
      else ("", cs)

/-- After the scheme: `//netloc` runs until `/`, `?` or `#`. -/
def splitNetloc (cs : List Char) : String × List Char :=
  match cs with
  | '/' :: '/' :: rest =>
    let netloc := rest.takeWhile (fun c => c ≠ '/' ∧ c ≠ '?' ∧ c ≠ '#')
    (String.mk netloc, rest.dropWhile (fun c => c ≠ '/' ∧ c ≠ '?' ∧ c ≠ '#'))
  | _ => ("", cs)

/-- Model of `urllib.parse.urlparse` restricted to the components the crawler
reads (scheme, netloc, path, query, fragment); fragment is split off before
the query, as in CPython's `urlsplit`. -/
def urlparse (url : String) : UrlParts :=
  let (scheme, rest) := splitScheme url.toList
  let (netloc, rest) := splitNetloc rest
  let (rest, fragment) :=
    match splitFirst '#' rest with
    | none => (rest, ([] : List Char))
    | some (a, b) => (a, b)
  let (path, query) :=
    match splitFirst '?' rest with
    | none => (rest, ([] : List Char))
    | some (a, b) => (a, b)
  { scheme := scheme, netloc := netloc, path := String.mk path,
    query := String.mk query, fragment := String.mk fragment }

/-- Model of `urllib.parse.parse_qs` for membership purposes: the list of
decoded (name, value) pairs, skipping chunks without `=` and blank values
(`keep_blank_values=False`).  `k in parse_qs(q)` is `k ∈ (parseQs q).map fst`. -/
def parseQs (query : String) : List (String × String) :=
  (splitOnChar '&' query.toList).foldr (fun chunk acc =>
    match splitFirst '=' chunk with
    | none => acc
    | some (name, value) =>
      if value = [] then acc
      else (unquotePlus (String.mk name), unquotePlus (String.mk value)) :: acc) []

/-- Key-membership in a parsed query string (`name in qs` on the Python dict). -/
def qsHasKey (query : String) (key : String) : Bool :=
  (parseQs query).any (fun p => p.1 == key)

/-! ### URL classifier (pure functions of `crawler_requests.py`) -/

def DEFAULT_FILE_EXTS : List String :=
  [".pdf", ".doc", ".docx", ".ppt", ".pptx", ".xls", ".xlsx", ".csv", ".txt", ".rtf",
   ".jpg", ".jpeg", ".png", ".gif", ".webp",
   ".mp4", ".mp3", ".wav", ".avi",
   ".json", ".xml", ".zip", ".rar", ".7z"]

/-- `is_valid_url`: http/https scheme and a non-empty netloc. -/
def is_valid_url (u : String) : Bool :=
  let p := urlparse (stripStr u)
  (p.scheme == "http" || p.scheme == "https") && p.netloc ≠ ""

/-- `normalize_ext`: first catalog extension the lowercased path ends with. -/
def normalize_ext (url : String) : String :=
  let path := lowerStr (urlparse url).path
  match DEFAULT_FILE_EXTS.find? (fun ext => endsWithStr path ext) with
  | some ext => ext
  | none => ""

/-- `looks_like_download_endpoint`: `/download/` in the lowercased path, or a
download-indicating query parameter; `dlm_download_category` alone is a
category listing and yields `false`. -/
def looks_like_download_endpoint (url : String) : Bool :=
  let u := urlparse url
  let path := lowerStr u.path
  let q := u.query
  if strContains path "/download/" then true
  else if qsHasKey q "download" || qsHasKey q "dlm_download" ||
          qsHasKey q "attachment_id" || qsHasKey q "file" then true
  else if qsHasKey q "dlm_download_category" then false
  else false

/-! ### Content-Disposition parsing (`parse_content_disposition_filename`) -/

/-- Consume `pat` case-insensitively at the head of `s`; return the rest. -/
def matchCI : List Char → List Char → Option (List Char)
  | [], s => some s
  | _ :: _, [] => none
  | p :: ps, c :: cs => if c.toLower = p.toLower then matchCI ps cs else none

def skipWs (s : List Char) : List Char := s.dropWhile Char.isWhitespace

/-- Strip characters satisfying `p` from both ends (`str.strip` family). -/
def stripListBy (p : Char → Bool) (cs : List Char) : List Char :=
  ((cs.dropWhile p).reverse.dropWhile p).reverse

/-- Left-to-right scan: first position where `attempt` matches (`re.search`). -/
def scanFor (attempt : List Char → Option (List Char)) : List Char → Option (List Char)
  | [] => attempt []
  | c :: cs =>
    match attempt (c :: cs) with
    | some r => some r
    | none => scanFor attempt cs

/-- One match attempt of `filename\*\s*=\s*([^']*)''([^;]+)`; yields group 2. -/
def tryExtendedAt (s : List Char) : Option (List Char) :=
  (matchCI "filename*".toList s).bind fun s =>
    match skipWs s with
    | '=' :: s =>
      let s := (skipWs s).dropWhile (· ≠ '\'')
      match s with
      | '\'' :: '\'' :: s =>
        let g2 := s.takeWhile (· ≠ ';')
        if g2 = [] then none else some g2
      | _ => none
    | _ => none

/-- One match attempt of `filename\s*=\s*"([^"]+)"`; yields group 1. -/
def tryQuotedAt (s : List Char) : Option (List Char) :=
  (matchCI "filename".toList s).bind fun s =>
    match skipWs s with
    | '=' :: s =>
      match skipWs s with
      | '"' :: s =>
        let g := s.takeWhile (· ≠ '"')
        if g = [] then none
        else if s.dropWhile (· ≠ '"') = [] then none  -- no closing quote
        else some g
      | _ => none
    | _ => none

/-- One match attempt of `filename\s*=\s*([^;]+)`; yields group 1. -/
def tryPlainAt (s : List Char) : Option (List Char) :=
  (matchCI "filename".toList s).bind fun s =>
    match skipWs s with
    | '=' :: s =>
      let g := (skipWs s).takeWhile (· ≠ ';')
      if g = [] then none else some g
    | _ => none

/-- `strip().strip('"').strip("'")` applied after the raw capture. -/
def stripQuoted (cs : List Char) : List Char :=
  stripListBy (· = '\'') (stripListBy (· = '"') (stripListBy Char.isWhitespace cs))

/-- `parse_content_disposition_filename`: extended `filename*=charset''value`
form first (percent-decoded), then the quoted form, then the bare form. -/
def parse_content_disposition_filename (cd : String) : Option String :=
  if cd = "" then none
  else
    match scanFor tryExtendedAt cd.toList with
    | some g2 => some (String.mk (stripQuoted (percentDecode g2)))
    | none =>
      match scanFor tryQuotedAt cd.toList with
      | some g1 => some (String.mk (stripListBy Char.isWhitespace g1))
      | none =>
        match scanFor tryPlainAt cd.toList with
        | some g1 => some (String.mk (stripQuoted g1))
        | none => none

/-! ### Header-based extension guessing and the prober -/

/-- The two response headers the crawler reads (dict lookups collapsed). -/
structure Headers where
  contentDisposition : Option String := none
  contentType : Option String := none
  deriving Repr, DecidableEq

/-- Python falsy-`or` on strings. -/
def strOr (a b : String) : String := if a = "" then b else a

/-- Extension part of `os.path.splitext(p)[1]` (posix): suffix from the last
`.` of the basename, where leading dots of the basename never start one. -/
def splitextExt (p : String) : String :=
  let base := ((p.toList.reverse.takeWhile (· ≠ '/')).reverse).dropWhile (· = '.')
  if base.any (· = '.') then
    String.mk ('.' :: (base.reverse.takeWhile (· ≠ '.')).reverse)
  else ""

/-- `os.path.basename`. -/
def basenameStr (p : String) : String :=
  String.mk (p.toList.reverse.takeWhile (· ≠ '/')).reverse

/-- The fixed content-type table of `guess_extension_from_headers`. -/
def CT_MAP : List (String × String) :=
  [("application/pdf", ".pdf"),
   ("application/vnd.openxmlformats-officedocument.spreadsheetml.sheet", ".xlsx"),
   ("application/vnd.ms-excel", ".xls"),
   ("text/csv", ".csv"),
   ("application/zip", ".zip"),
   ("application/vnd.openxmlformats-officedocument.wordprocessingml.document", ".docx"),
   ("application/vnd.openxmlformats-officedocument.presentationml.presentation", ".pptx"),
   ("application/octet-stream", "")]

/-- `guess_extension_from_headers`: Content-Disposition filename first, then
the content-type table (`k in ct and v`), then extension-from-path. -/
def guess_extension_from_headers (url : String) (headers : Headers) :
    String × String :=
  let cd := headers.contentDisposition.getD ""
  let ct := lowerStr (headers.contentType.getD "")
  let filename := (parse_content_disposition_filename cd).getD ""
  let fromCd : Option (String × String) :=
    if filename ≠ "" then
      let ext := splitextExt (lowerStr filename)
      if ext ∈ DEFAULT_FILE_EXTS then some (filename, ext) else none
    else none
  match fromCd with
  | some r => r
  | none =>
    match CT_MAP.find? (fun kv => strContains ct kv.1 && kv.2 ≠ "") with
    | some kv => (filename, kv.2)
    | none => (filename, normalize_ext url)

/-- Outcome of one HTTP attempt as the crawler observes it: an exception, or
a (redirect-resolved) response with status, final URL and headers. -/
inductive ReqOutcome where
  | exn
  | resp (status : Nat) (finalUrl : String) (headers : Headers)
  deriving Repr, DecidableEq

structure ProbeResult where
  final_url : String
  filename : String
  ext : String
  deriving Repr, DecidableEq

/-- One attempt of `probe_file` (shared body of the HEAD try and the GET
fallback): a usable result needs status `< 400` and a non-empty extension. -/
def probeAttemptResult (r : ReqOutcome) : Option ProbeResult :=
  match r with
  | .exn => none
  | .resp status finalUrl headers =>
    if status < 400 then
      let fe := guess_extension_from_headers finalUrl headers
      if fe.2 ≠ "" then
        some { final_url := finalUrl,
               filename := strOr fe.1 (strOr (basenameStr (urlparse finalUrl).path) finalUrl),
               ext := fe.2 }
      else none
    else none

/-- `probe_file` over the two attempt outcomes: HEAD first, then the GET
fallback; `none` when neither attempt yields a usable result. -/
def probe_file (head get : ReqOutcome) : Option ProbeResult :=
  match probeAttemptResult head with
  | some r => some r
  | none => probeAttemptResult get

/-- Whether `probe_file` reaches the streamed-GET fallback: exactly when the
HEAD try did not already return. -/
def probe_issues_get (head : ReqOutcome) : Bool :=
  (probeAttemptResult head).isNone

/-- Modelled from the spec: "the HEAD attempt yields an error status or
fails" (the spec's stated trigger for the GET fallback). -/
def spec_head_failed_or_error (r : ReqOutcome) : Bool :=
  match r with
  | .exn => true
  | .resp status _ _ => 400 ≤ status

/-! ### `fetch_html` -/

/-- Outcome of the page-fetch GET: exception, or status + content-type + body. -/
inductive FetchOutcome where
  | exn
  | resp (status : Nat) (contentType : Option String) (text : String)
  deriving Repr, DecidableEq

/-- `fetch_html`: `none` on exception, on status `>= 400`, and on a
content-type not containing `text/html`; the body text otherwise. -/
def fetch_html : FetchOutcome → Option String
  | .exn => none
  | .resp status ct text =>
    if 400 ≤ status then none
    else if !(strContains (lowerStr (ct.getD "")) "text/html") then none
    else some text

/-- Modelled from the spec: "a Content-Type that is … an HTML/XML document"
(the class of content types the spec says `fetch_html` accepts). -/
def spec_is_markup_content_type (ct : String) : Bool :=
  strContains (lowerStr ct) "html" || strContains (lowerStr ct) "xml"

/-! ### The concurrent crawler (`crawl_requests_concurrent`)

The network and the thread pool are abstracted into an oracle `World`:
`pageLinks u` is the joint outcome of `process_page` for `u` (`none` when the
fetch failed, raised, or the page yielded no HTML — all of which the loop
treats identically with `continue`); `probe u` is the outcome of
`probe_file` for `u`; `stop n` is the value of the `n`-th poll of `stop_cb`;
`priority` fixes the `as_completed` completion order of each batch (any
permutation of a batch is realised by some priority map, since a URL is
submitted at most once per run).  The sitemap expansion's network half
(`discover_sitemaps` / `fetch_sitemap_urls`) is likewise an oracle.  The
coordinator-side control flow — batch slicing, visited bookkeeping, link
classification, probe caching, dedup, ceilings and cooperative stop — is
translated statement by statement. -/

/-- The fields of the runtime `settings` object read by
`crawl_requests_concurrent` (fields the model cannot observe, such as the
timeout, worker count, delay and user agent, are kept for completeness but
unused). -/
structure Settings where
  user_agent : String := "scrapbee"
  timeout_seconds : Nat := 20
  workers : Nat := 8
  delay_seconds : Nat := 0
  use_sitemaps : Bool := false
  same_domain_only : Bool := true
  deep_detect_downloads : Bool := true
  max_depth : Nat := 2
  max_pages : Nat := 50
  max_files : Nat := 100
  max_sitemap_urls : Nat := 50

/-- One record of the result list (`files.append({...})`). -/
structure DiscoveredFile where
  select : Bool
  file : String
  type : String
  url : String
  source : String
  deriving Repr, DecidableEq

/-- A frontier entry `(url, depth, root_netloc)`. -/
abbrev Entry := String × Nat × String

structure World where
  pageLinks : String → Option (List String)
  probe : String → Option ProbeResult
  stop : Nat → Bool
  priority : String → Nat
  discoverSitemaps : String → List String := fun _ => []
  sitemapUrls : String → List String := fun _ => []

/-- The coordinator's mutable state, plus instrumentation (`polls`,
`fetchLog`, `probeLog`, `enqueueLog`) that records, without influencing the
run, the stop-predicate polls, the dispatched fetches `(url, depth)` in
dispatch order, the URLs actually probed in order, and each enqueue
`(srcUrl, srcDepth, link, linkDepth)`. -/
structure CrawlState where
  current_level : List Entry
  visited : List String
  files : List DiscoveredFile
  seen_files : List String
  probe_cache : List (String × Option ProbeResult)
  pages_done : Nat
  polls : Nat
  fetchLog : List (String × Nat)
  probeLog : List String
  enqueueLog : List (String × Nat × String × Nat)
  finished : Bool
  deriving Repr

/-- Stable-enough insertion by priority (models one `as_completed` order). -/
def insertByPrio (p : String → Nat) (e : Entry) : List Entry → List Entry
  | [] => [e]
  | f :: fs => if p e.1 < p f.1 then e :: f :: fs else f :: insertByPrio p e fs

/-- Sort a batch's futures by the oracle's priority: the completion order. -/
def sortByPrio (p : String → Nat) : List Entry → List Entry
  | [] => []
  | e :: es => insertByPrio p e (sortByPrio p es)

/-- Result of classifying one link after the optional deep-detection probe:
the updated state and the (possibly probe-resolved) link, extension and
filename, mirroring the rebinding of `ext`, `link`, `filename` at
lines 403–414. -/
structure LinkView where
  st : CrawlState
  link : String
  ext : String
  filename : String

/-- Lines 403–414: path classification and, for extension-less
download-endpoint links with deep detection on, the memoized probe.  A probe
outcome — including `none` — is cached on first encounter; a usable cached
outcome replaces link, extension and filename. -/
def deepDetect (w : World) (S : Settings) (link : String) (st : CrawlState) :
    LinkView :=
  let ext := normalize_ext link
  if ext = "" && S.deep_detect_downloads && looks_like_download_endpoint link then
    let st :=
      if (st.probe_cache.lookup link).isNone then
        { st with probe_cache := st.probe_cache ++ [(link, w.probe link)],
                  probeLog := st.probeLog ++ [link] }
      else st
    match st.probe_cache.lookup link with
    | some (some p) => ⟨st, p.final_url, p.ext, p.filename⟩
    | _ => ⟨st, link, ext, ""⟩
  else ⟨st, link, ext, ""⟩

/-- Lines 416–428 on a classified link: dedup-guarded recording. -/
def recordFile (srcUrl : String) (v : LinkView) : CrawlState :=
  let newFile : DiscoveredFile :=
    { select := false,
      file := strOr v.filename (strOr (basenameStr (urlparse v.link).path) v.link),
      type := v.ext, url := v.link, source := srcUrl }
  { v.st with files := v.st.files ++ [newFile],
              seen_files := v.st.seen_files ++ [v.link] }

/-- The `for link in links` loop (lines 396–432): per-link stop poll, domain
filter, classification, memoized probing, dedup-guarded recording with the
max-files break, and enqueueing at depth `d + 1`. -/
def linkLoop (w : World) (S : Settings) (allowed : List String)
    (srcUrl : String) (d : Nat) (root : String) :
    List String → CrawlState → List Entry → CrawlState × List Entry
  | [], st, nu => (st, nu)
  | link :: rest, st, nu =>
    let stopv := w.stop st.polls
    let st := { st with polls := st.polls + 1 }
    if stopv then (st, nu)
    else if S.same_domain_only && (urlparse link).netloc ≠ root then
      linkLoop w S allowed srcUrl d root rest st nu
    else
      let v := deepDetect w S link st
      if v.ext ≠ "" && (allowed.isEmpty || allowed.contains v.ext) then
        if !(v.st.seen_files.contains v.link) then
          let st := recordFile srcUrl v
          if S.max_files ≤ st.files.length then (st, nu)
          else linkLoop w S allowed srcUrl d root rest st nu
        else linkLoop w S allowed srcUrl d root rest v.st nu
      else
        if d < S.max_depth && !(v.st.visited.contains v.link) then
          let st := { v.st with
            enqueueLog := v.st.enqueueLog ++ [(srcUrl, d, v.link, d + 1)] }
          linkLoop w S allowed srcUrl d root rest st (nu ++ [(v.link, d + 1, root)])
        else linkLoop w S allowed srcUrl d root rest v.st nu

/-- The `for fut in as_completed(futs)` loop (lines 382–435): per-future stop
poll, `pages_done` counting, and the max-files / max-pages batch break. -/
def futLoop (w : World) (S : Settings) (allowed : List String) :
    List Entry → CrawlState → List Entry → CrawlState × List Entry
  | [], st, nu => (st, nu)
  | (url, d, root) :: rest, st, nu =>
    let stopv := w.stop st.polls
    let st := { st with polls := st.polls + 1 }
    if stopv then (st, nu)
    else
      let st := { st with pages_done := st.pages_done + 1 }
      match w.pageLinks url with
      | none => futLoop w S allowed rest st nu
      | some links =>
        if links.isEmpty then futLoop w S allowed rest st nu
        else
          let r := linkLoop w S allowed url d root links st nu
          if S.max_files ≤ r.1.files.length || S.max_pages ≤ r.1.pages_done then r
          else futLoop w S allowed rest r.1 r.2

/-- The submission loop (lines 376–380): skip visited entries, mark the rest
visited, dispatch them (recorded in `fetchLog`), and return the futures. -/
def submitBatch : List Entry → CrawlState → CrawlState × List Entry
  | [], st => (st, [])
  | (url, d, root) :: rest, st =>
    if st.visited.contains url then submitBatch rest st
    else
      let st := { st with visited := st.visited ++ [url],
                          fetchLog := st.fetchLog ++ [(url, d)] }
      let r := submitBatch rest st
      (r.1, (url, d, root) :: r.2)

/-- Lines 437–444: append `next_urls` to the queue, de-duping against the
queue's URLs (the growing `current_level` is exactly Python's `seen` set). -/
def pushNext : CrawlState → List Entry → CrawlState
  | st, [] => st
  | st, (u, d, r) :: rest =>
    if (st.current_level.map (fun e => e.1)).contains u then pushNext st rest
    else pushNext { st with current_level := st.current_level ++ [(u, d, r)] } rest

/-- The body of one `while` iteration once the entry checks passed
(lines 362–450): batch slicing sized to the remaining page budget, dispatch,
completion processing in the oracle's order, queue push (gated on the head
depth `d0`), and the max-files exit. -/
def stepCore (w : World) (S : Settings) (allowed : List String)
    (st : CrawlState) (d0 : Nat) : CrawlState :=
  let b := max 1 (S.max_pages - st.pages_done)
  let batch := st.current_level.take b
  let st := { st with current_level := st.current_level.drop b }
  let sub := submitBatch batch st
  let r := futLoop w S allowed (sortByPrio w.priority sub.2) sub.1 []
  let st := if d0 < S.max_depth then pushNext r.1 r.2 else r.1
  if S.max_files ≤ st.files.length then { st with finished := true } else st

/-- One iteration of the `while current_level` loop (lines 354–450):
emptiness test, stop poll, page-budget test, then the body.  (The
`progress_cb` calls and the delay sleep are pure side effects and omitted;
the `roots` dict of lines 332–335 is computed by the source but never read.) -/
def crawlStep (w : World) (S : Settings) (allowed : List String)
    (st : CrawlState) : CrawlState :=
  match st.current_level with
  | [] => { st with finished := true }
  | (_, d0, _) :: _ =>
    let stopv := w.stop st.polls
    let st := { st with polls := st.polls + 1 }
    if stopv then { st with finished := true }
    else if S.max_pages ≤ st.pages_done then { st with finished := true }
    else stepCore w S allowed st d0

/-- The `while` loop, fuel-bounded (the source loop terminates by the
lexicographic measure (remaining page budget, queue length); every claim
below is proved for every amount of fuel). -/
def crawlLoop (w : World) (S : Settings) (allowed : List String) :
    Nat → CrawlState → CrawlState
  | 0, st => st
  | fuel + 1, st =>
    if st.finished then st else crawlLoop w S allowed fuel (crawlStep w S allowed st)

/-- `sm_urls` accumulation over a seed's sitemap list (lines 314–319); the
per-sitemap fetch is the oracle `sitemapUrls`, capped like `max_urls`. -/
def smAccum (w : World) (S : Settings) : List String → List String → List String
  | [], acc => acc
  | sm :: rest, acc =>
    let acc := acc ++ (w.sitemapUrls sm).take (S.max_sitemap_urls - acc.length)
    if S.max_sitemap_urls ≤ acc.length then acc else smAccum w S rest acc

/-- Seed expansion (lines 302–324): each valid seed, plus — once per domain —
its sitemap URLs (same-domain filtered when requested, capped). -/
def expandSeeds (w : World) (S : Settings) :
    List String → List String → List String
  | [], _ => []
  | su :: rest, seenDoms =>
    if !(is_valid_url su) then expandSeeds w S rest seenDoms
    else
      let dom := (urlparse su).netloc
      if seenDoms.contains dom then su :: expandSeeds w S rest seenDoms
      else
        let smUrls := smAccum w S (w.discoverSitemaps su) []
        let smUrls := if S.same_domain_only then
            smUrls.filter (fun u => (urlparse u).netloc == dom) else smUrls
        su :: (smUrls.take S.max_sitemap_urls ++ expandSeeds w S rest (seenDoms ++ [dom]))

/-- `list(dict.fromkeys(xs))`: de-dupe keeping first occurrences. -/
def dedupKeepFirst (seen : List String) : List String → List String
  | [] => []
  | u :: rest =>
    if seen.contains u then dedupKeepFirst seen rest
    else u :: dedupKeepFirst (seen ++ [u]) rest

/-- `expanded_start` (lines 299–329). -/
def expandStart (w : World) (S : Settings) (start_urls : List String) : List String :=
  if S.use_sitemaps then dedupKeepFirst [] (expandSeeds w S start_urls [])
  else start_urls.filter is_valid_url

/-- The initial coordinator state (lines 337–344). -/
def initState (w : World) (S : Settings) (start_urls : List String) : CrawlState :=
  { current_level := ((expandStart w S start_urls).filter is_valid_url).map
      (fun u => (u, 0, (urlparse u).netloc)),
    visited := [], files := [], seen_files := [], probe_cache := [],
    pages_done := 0, polls := 0, fetchLog := [], probeLog := [], enqueueLog := [],
    finished := false }

/-- Full run, returning the final state (instrumentation included). -/
def crawlRun (w : World) (start_urls allowed_exts : List String)
    (S : Settings) (fuel : Nat) : CrawlState :=
  let allowed := allowed_exts.map (fun e => stripStr (lowerStr e))
  crawlLoop w S allowed fuel (initState w S start_urls)

/-- `crawl_requests_concurrent`: the returned `files` list. -/
def crawl_requests_concurrent (w : World) (start_urls allowed_exts : List String)
    (S : Settings) (fuel : Nat) : List DiscoveredFile :=
  (crawlRun w start_urls allowed_exts S fuel).files

/-- The state after the first iteration of the loop. -/
def firstIteration (w : World) (S : Settings) (allowed_exts start_urls : List String) :
    CrawlState :=
  crawlStep w S (allowed_exts.map (fun e => stripStr (lowerStr e)))
    (initState w S start_urls)

/-- One `probe_file` attempt succeeds: a non-error response whose headers or
final URL determine a non-empty extension. -/
def attemptYields (r : ReqOutcome) : Prop :=
  ∃ s u h, r = ReqOutcome.resp s u h ∧ s < 400 ∧
    (guess_extension_from_headers u h).2 ≠ ""

/-! ### Concrete scenarios (for counterexamples and witnesses) -/

/-- A site whose seed page links one PDF and nothing else. -/
def pdfWorld : World :=
  { pageLinks := fun u => if u = "http://a/s" then some ["http://a/f.pdf"] else some [],
    probe := fun _ => none,
    stop := fun _ => false,
    priority := fun _ => 0 }

/-- An ordinary policy with comfortable bounds. -/
def basicPolicy : Settings :=
  { use_sitemaps := false, same_domain_only := true, deep_detect_downloads := false,
    max_depth := 2, max_pages := 10, max_files := 10 }

/-- The same policy with `max_files = 0` (non-negative, as the spec allows). -/
def zeroFilesPolicy : Settings :=
  { use_sitemaps := false, same_domain_only := true, deep_detect_downloads := false,
    max_depth := 1, max_pages := 3, max_files := 0 }

/-- `pdfWorld` with a stop predicate that is already true at the first poll. -/
def stopWorld : World :=
  { pageLinks := fun u => if u = "http://a/s" then some ["http://a/f.pdf"] else some [],
    probe := fun _ => none,
    stop := fun _ => true,
    priority := fun _ => 0 }

/-- A site on one host where duplicate seeds make a batch span two depth
levels and the completion order (priorities) finishes the deeper page first:
page `p` (depth 1) completes before seed `x` (depth 0), so `m` (depth 2) is
queued before `l` (depth 1) and dispatched before it. -/
def mixWorld : World :=
  { pageLinks := fun u =>
      if u = "http://a/s1" then some ["http://a/p"]
      else if u = "http://a/s2" then some []
      else if u = "http://a/x" then some ["http://a/l"]
      else if u = "http://a/p" then some ["http://a/m"]
      else some [],
    probe := fun _ => none,
    stop := fun _ => false,
    priority := fun u => if u = "http://a/p" then 0
      else if u = "http://a/x" then 3 else 1 }

def mixPolicy : Settings :=
  { use_sitemaps := false, same_domain_only := true, deep_detect_downloads := false,
    max_depth := 5, max_pages := 6, max_files := 10 }

/-- Duplicate seeds: the crawler does not de-dupe `start_urls` when sitemaps
are off, so visited-set skips leave page budget for later batches. -/
def mixSeeds : List String :=
  ["http://a/s1", "http://a/s2", "http://a/s1", "http://a/s1", "http://a/s1",
   "http://a/s1", "http://a/x"]

/-- A same-host download endpoint whose probe resolves to another host. -/
def redirectWorld : World :=
  { pageLinks := fun u => if u = "http://a/s" then some ["http://a/download/1"]
      else some [],
    probe := fun u => if u = "http://a/download/1" then
        some { final_url := "http://b/f.pdf", filename := "f.pdf", ext := ".pdf" }
      else none,
    stop := fun _ => false,
    priority := fun _ => 0 }

def redirectPolicy : Settings :=
  { use_sitemaps := false, same_domain_only := true, deep_detect_downloads := true,
    max_depth := 1, max_pages := 5, max_files := 5 }

/-! ### Basic lemmas about the model's building blocks -/

theorem insertByPrio_perm (p : String → Nat) (e : Entry) (l : List Entry) :
    List.Perm (insertByPrio p e l) (e :: l) := by
  induction l with
  | nil => simp [insertByPrio]
  | cons f fs ih =>
    simp only [insertByPrio]
    split
    · exact List.Perm.refl _
    · exact (ih.cons f).trans (List.Perm.swap e f fs)

theorem sortByPrio_perm (p : String → Nat) (l : List Entry) :
    List.Perm (sortByPrio p l) l := by
  induction l with
  | nil => simp [sortByPrio]
  | cons e es ih =>
    exact (insertByPrio_perm p e (sortByPrio p es)).trans (ih.cons e)

theorem sortByPrio_length (p : String → Nat) (l : List Entry) :
    (sortByPrio p l).length = l.length :=
  (sortByPrio_perm p l).length_eq

theorem sortByPrio_mem {p : String → Nat} {l : List Entry} {e : Entry}
    (h : e ∈ sortByPrio p l) : e ∈ l :=
  (sortByPrio_perm p l).mem_iff.mp h

/-- `List.lookup` succeeds exactly on stored keys. -/
theorem lookup_none_iff (a : String) (l : List (String × Option ProbeResult)) :
    l.lookup a = none ↔ a ∉ l.map Prod.fst := by
  induction l with
  | nil => simp [List.lookup]
  | cons kv rest ih =>
    obtain ⟨k, b⟩ := kv
    by_cases h : a = k
    · subst h; simp [List.lookup]
    · have hb : (a == k) = false := beq_eq_false_iff_ne.mpr h
      simp [List.lookup, hb, ih, h]

/-- Submission touches only `visited` and `fetchLog`. -/
theorem submitBatch_frame (l : List Entry) (st : CrawlState) :
    (submitBatch l st).1.files = st.files ∧
    (submitBatch l st).1.seen_files = st.seen_files ∧
    (submitBatch l st).1.probe_cache = st.probe_cache ∧
    (submitBatch l st).1.probeLog = st.probeLog ∧
    (submitBatch l st).1.pages_done = st.pages_done ∧
    (submitBatch l st).1.current_level = st.current_level ∧
    (submitBatch l st).1.enqueueLog = st.enqueueLog ∧
    (submitBatch l st).1.finished = st.finished ∧
    (submitBatch l st).1.polls = st.polls := by
  induction l generalizing st with
  | nil => simp [submitBatch]
  | cons e rest ih =>
    obtain ⟨url, d, root⟩ := e
    simp only [submitBatch]
    split
    · exact ih st
    · simpa using ih { st with visited := st.visited ++ [url],
                               fetchLog := st.fetchLog ++ [(url, d)] }

/-- The dispatched futures: recorded in `fetchLog` in dispatch order, at most
one per batch entry, and all taken from the batch. -/
theorem submitBatch_futs (l : List Entry) (st : CrawlState) :
    (submitBatch l st).1.fetchLog
      = st.fetchLog ++ (submitBatch l st).2.map (fun e => (e.1, e.2.1)) ∧
    (submitBatch l st).2.length ≤ l.length ∧
    (∀ e ∈ (submitBatch l st).2, e ∈ l) := by
  induction l generalizing st with
  | nil => simp [submitBatch]
  | cons e rest ih =>
    obtain ⟨url, d, root⟩ := e
    simp only [submitBatch]
    split
    · obtain ⟨h1, h2, h3⟩ := ih st
      exact ⟨h1, h2.trans (Nat.le_succ _), fun e he => List.mem_cons_of_mem _ (h3 e he)⟩
    · obtain ⟨h1, h2, h3⟩ := ih { st with visited := st.visited ++ [url],
                                           fetchLog := st.fetchLog ++ [(url, d)] }
      refine ⟨?_, by simpa using Nat.succ_le_succ h2, ?_⟩
      · simpa [List.append_assoc] using h1
      · intro e he
        rcases List.mem_cons.mp he with h | h
        · exact h ▸ List.mem_cons_self _ _
        · exact List.mem_cons_of_mem _ (h3 e h)

/-- The queue push touches only `current_level`, extending it with entries
drawn from `next_urls`. -/
theorem pushNext_spec (nu : List Entry) (st : CrawlState) :
    (pushNext st nu).files = st.files ∧
    (pushNext st nu).seen_files = st.seen_files ∧
    (pushNext st nu).probe_cache = st.probe_cache ∧
    (pushNext st nu).probeLog = st.probeLog ∧
    (pushNext st nu).pages_done = st.pages_done ∧
    (pushNext st nu).visited = st.visited ∧
    (pushNext st nu).fetchLog = st.fetchLog ∧
    (pushNext st nu).enqueueLog = st.enqueueLog ∧
    (pushNext st nu).finished = st.finished ∧
    (pushNext st nu).polls = st.polls ∧
    ∃ t, (pushNext st nu).current_level = st.current_level ++ t ∧
      ∀ e ∈ t, e ∈ nu := by
  induction nu generalizing st with
  | nil => simp [pushNext]
  | cons e rest ih =>
    obtain ⟨u, d, r⟩ := e
    simp only [pushNext]
    split
    · obtain ⟨h1, h2, h3, h4, h5, h6, h7, h8, h9, h10, t, ht, hm⟩ := ih st
      exact ⟨h1, h2, h3, h4, h5, h6, h7, h8, h9, h10, t, ht,
        fun e he => List.mem_cons_of_mem _ (hm e he)⟩
    · obtain ⟨h1, h2, h3, h4, h5, h6, h7, h8, h9, h10, t, ht, hm⟩ :=
        ih { st with current_level := st.current_level ++ [(u, d, r)] }
      refine ⟨h1, h2, h3, h4, h5, h6, h7, h8, h9, h10, (u, d, r) :: t, ?_, ?_⟩
      · simpa [List.append_assoc] using ht
      · intro e he
        rcases List.mem_cons.mp he with h | h
        · exact h ▸ List.mem_cons_self _ _
        · exact List.mem_cons_of_mem _ (hm e h)

/-- Deep detection touches only the probe cache and its log. -/
theorem deepDetect_frame (w : World) (S : Settings) (link : String)
    (st : CrawlState) :
    (deepDetect w S link st).st.files = st.files ∧
    (deepDetect w S link st).st.seen_files = st.seen_files ∧
    (deepDetect w S link st).st.pages_done = st.pages_done ∧
    (deepDetect w S link st).st.current_level = st.current_level ∧
    (deepDetect w S link st).st.visited = st.visited ∧
    (deepDetect w S link st).st.fetchLog = st.fetchLog ∧
    (deepDetect w S link st).st.enqueueLog = st.enqueueLog ∧
    (deepDetect w S link st).st.finished = st.finished ∧
    (deepDetect w S link st).st.polls = st.polls := by
  simp only [deepDetect]
  split
  · split <;> split <;> simp_all
  · simp

@[simp] theorem deepDetect_files (w : World) (S : Settings) (link : String)
    (st : CrawlState) : (deepDetect w S link st).st.files = st.files :=
  (deepDetect_frame w S link st).1

@[simp] theorem deepDetect_seen (w : World) (S : Settings) (link : String)
    (st : CrawlState) : (deepDetect w S link st).st.seen_files = st.seen_files :=
  (deepDetect_frame w S link st).2.1

@[simp] theorem deepDetect_pages (w : World) (S : Settings) (link : String)
    (st : CrawlState) : (deepDetect w S link st).st.pages_done = st.pages_done :=
  (deepDetect_frame w S link st).2.2.1

@[simp] theorem deepDetect_level (w : World) (S : Settings) (link : String)
    (st : CrawlState) : (deepDetect w S link st).st.current_level = st.current_level :=
  (deepDetect_frame w S link st).2.2.2.1

@[simp] theorem deepDetect_visited (w : World) (S : Settings) (link : String)
    (st : CrawlState) : (deepDetect w S link st).st.visited = st.visited :=
  (deepDetect_frame w S link st).2.2.2.2.1

@[simp] theorem deepDetect_fetch (w : World) (S : Settings) (link : String)
    (st : CrawlState) : (deepDetect w S link st).st.fetchLog = st.fetchLog :=
  (deepDetect_frame w S link st).2.2.2.2.2.1

@[simp] theorem deepDetect_enq (w : World) (S : Settings) (link : String)
    (st : CrawlState) : (deepDetect w S link st).st.enqueueLog = st.enqueueLog :=
  (deepDetect_frame w S link st).2.2.2.2.2.2.1

@[simp] theorem deepDetect_fin (w : World) (S : Settings) (link : String)
    (st : CrawlState) : (deepDetect w S link st).st.finished = st.finished :=
  (deepDetect_frame w S link st).2.2.2.2.2.2.2.1

@[simp] theorem deepDetect_polls (w : World) (S : Settings) (link : String)
    (st : CrawlState) : (deepDetect w S link st).st.polls = st.polls :=
  (deepDetect_frame w S link st).2.2.2.2.2.2.2.2

/-- Deep detection preserves the probe-cache invariants: the probe log lists
exactly the cached keys, each at most once, and every cached outcome is the
oracle's outcome for its key. -/
theorem deepDetect_probe (w : World) (S : Settings) (link : String)
    (st : CrawlState)
    (h1 : st.probeLog = st.probe_cache.map Prod.fst)
    (h2 : st.probeLog.Nodup)
    (h3 : ∀ pr ∈ st.probe_cache, pr.2 = w.probe pr.1) :
    (deepDetect w S link st).st.probeLog
      = (deepDetect w S link st).st.probe_cache.map Prod.fst ∧
    (deepDetect w S link st).st.probeLog.Nodup ∧
    ∀ pr ∈ (deepDetect w S link st).st.probe_cache, pr.2 = w.probe pr.1 := by
  simp only [deepDetect]
  split
  · by_cases hmiss : (st.probe_cache.lookup link).isNone = true
    · -- cache miss: append the probe outcome and log the URL
      rw [if_pos hmiss]
      have hnone : st.probe_cache.lookup link = none :=
        Option.isNone_iff_eq_none.mp hmiss
      have hnotin : link ∉ st.probe_cache.map Prod.fst :=
        (lookup_none_iff link st.probe_cache).mp hnone
      have a : (st.probeLog ++ [link])
          = (st.probe_cache ++ [(link, w.probe link)]).map Prod.fst := by
        simp [h1]
      have b : (st.probeLog ++ [link]).Nodup := by
        refine List.nodup_append.mpr ⟨h2, List.nodup_singleton link, ?_⟩
        intro x hx hx'
        rw [List.mem_singleton.mp hx'] at hx
        exact hnotin (h1 ▸ hx)
      have c : ∀ pr ∈ st.probe_cache ++ [(link, w.probe link)],
          pr.2 = w.probe pr.1 := by
        intro pr hpr
        rcases List.mem_append.mp hpr with h | h
        · exact h3 pr h
        · rw [List.mem_singleton.mp h]
      split <;> exact ⟨a, b, c⟩
    · rw [if_neg hmiss]
      split <;> exact ⟨h1, h2, h3⟩
  · exact ⟨h1, h2, h3⟩

/-- The link loop touches neither the page counter, the queue, the visited
set, the dispatch log nor the finished flag. -/
theorem linkLoop_frame (w : World) (S : Settings) (allowed : List String)
    (srcUrl : String) (d : Nat) (root : String)
    (links : List String) (st : CrawlState) (nu : List Entry) :
    (linkLoop w S allowed srcUrl d root links st nu).1.pages_done = st.pages_done ∧
    (linkLoop w S allowed srcUrl d root links st nu).1.current_level = st.current_level ∧
    (linkLoop w S allowed srcUrl d root links st nu).1.visited = st.visited ∧
    (linkLoop w S allowed srcUrl d root links st nu).1.fetchLog = st.fetchLog ∧
    (linkLoop w S allowed srcUrl d root links st nu).1.finished = st.finished := by
  induction links generalizing st nu with
  | nil => simp [linkLoop]
  | cons link rest ih =>
    simp only [linkLoop]
    split
    · simp
    · split
      · simpa using ih _ nu
      · split
        · split
          · split
            · simp [recordFile]
            · simpa [recordFile] using ih _ nu
          · simpa using
              ih ((deepDetect w S link { st with polls := st.polls + 1 }).st) nu
        · split
          · simpa using ih _ _
          · simpa using
              ih ((deepDetect w S link { st with polls := st.polls + 1 }).st) nu

/-- Poll counter only grows in the link loop. -/
theorem linkLoop_polls (w : World) (S : Settings) (allowed : List String)
    (srcUrl : String) (d : Nat) (root : String) (links : List String) :
    ∀ st nu, st.polls ≤ (linkLoop w S allowed srcUrl d root links st nu).1.polls := by
  induction links with
  | nil => intro st nu; simp [linkLoop]
  | cons link rest ih =>
    intro st nu
    have key : ∀ (st' : CrawlState) (nu' : List Entry), st'.polls = st.polls + 1 →
        st.polls ≤ (linkLoop w S allowed srcUrl d root rest st' nu').1.polls := by
      intro st' nu' h
      exact Nat.le_trans (by omega) (ih st' nu')
    simp only [linkLoop]
    split
    · simp
    · split
      · exact key _ nu (by simp)
      · split
        · split
          · split
            · simp [recordFile]
            · exact key _ nu (by simp [recordFile])
          · exact key _ nu (by simp)
        · split
          · exact key _ _ (by simp)
          · exact key _ nu (by simp)

/-- The result list only grows in the link loop (no overwrites, only
appends). -/
theorem linkLoop_files_mono (w : World) (S : Settings) (allowed : List String)
    (srcUrl : String) (d : Nat) (root : String) (links : List String) :
    ∀ st nu, st.files <+: (linkLoop w S allowed srcUrl d root links st nu).1.files := by
  induction links with
  | nil => intro st nu; simp [linkLoop]
  | cons link rest ih =>
    intro st nu
    have key : ∀ (st' : CrawlState) (nu' : List Entry), st.files <+: st'.files →
        st.files <+: (linkLoop w S allowed srcUrl d root rest st' nu').1.files := by
      intro st' nu' h
      exact h.trans (ih st' nu')
    simp only [linkLoop]
    split
    · simp
    · split
      · exact key _ nu (by simp)
      · split
        · split
          · split
            · simp [recordFile]
            · exact key _ nu (by simp [recordFile])
          · exact key _ nu (by simp)
        · split
          · exact key _ _ (by simp)
          · exact key _ nu (by simp)

/-- The link loop preserves the dedup invariant: recorded URLs (in order)
are exactly `seen_files`, and each resolved URL appears at most once. -/
theorem linkLoop_filesSeen (w : World) (S : Settings) (allowed : List String)
    (srcUrl : String) (d : Nat) (root : String) (links : List String) :
    ∀ st nu, st.files.map (fun f => f.url) = st.seen_files → st.seen_files.Nodup →
      (linkLoop w S allowed srcUrl d root links st nu).1.files.map (fun f => f.url)
          = (linkLoop w S allowed srcUrl d root links st nu).1.seen_files ∧
        (linkLoop w S allowed srcUrl d root links st nu).1.seen_files.Nodup := by
  induction links with
  | nil => intro st nu h1 h2; simpa [linkLoop] using ⟨h1, h2⟩
  | cons link rest ih =>
    intro st nu h1 h2
    simp only [linkLoop]
    split
    · exact ⟨h1, h2⟩
    · split
      · exact ih _ nu h1 h2
      · split
        · split
          · rename_i hseen
            have hnotin : (deepDetect w S link { st with polls := st.polls + 1 }).link
                ∉ (deepDetect w S link { st with polls := st.polls + 1 }).st.seen_files := by
              simpa using hseen
            have h1' : (recordFile srcUrl (deepDetect w S link { st with polls := st.polls + 1 })).files.map
                  (fun f => f.url)
                = (recordFile srcUrl (deepDetect w S link { st with polls := st.polls + 1 })).seen_files := by
              simp [recordFile, h1]
            have h2' : (recordFile srcUrl (deepDetect w S link { st with polls := st.polls + 1 })).seen_files.Nodup := by
              simp only [recordFile]
              refine List.nodup_append.mpr ⟨by simpa using h2, List.nodup_singleton _, ?_⟩
              intro x hx hx'
              rw [List.mem_singleton.mp hx'] at hx
              exact hnotin (by simpa using hx)
            split
            · exact ⟨h1', h2'⟩
            · exact ih _ nu h1' h2'
          · exact ih ((deepDetect w S link { st with polls := st.polls + 1 }).st) nu
              (by simpa using h1) (by simpa using h2)
        · split
          · exact ih _ _ (by simpa using h1) (by simpa using h2)
          · exact ih ((deepDetect w S link { st with polls := st.polls + 1 }).st) nu
              (by simpa using h1) (by simpa using h2)

/-- The max-files ceiling, off by the post-append check: entering with room
to spare, the loop never exceeds `max 1 max_files`. -/
theorem linkLoop_files_bound (w : World) (S : Settings) (allowed : List String)
    (srcUrl : String) (d : Nat) (root : String) (links : List String) :
    ∀ st nu, st.files.length < max 1 S.max_files →
      (linkLoop w S allowed srcUrl d root links st nu).1.files.length
        ≤ max 1 S.max_files := by
  induction links with
  | nil => intro st nu h; simpa [linkLoop] using Nat.le_of_lt h
  | cons link rest ih =>
    intro st nu h
    simp only [linkLoop]
    split
    · simpa using Nat.le_of_lt h
    · split
      · exact ih _ nu (by simpa using h)
      · split
        · split
          · have hlen : (recordFile srcUrl
                (deepDetect w S link { st with polls := st.polls + 1 })).files.length
                = st.files.length + 1 := by
              simp [recordFile]
            split
            · show (recordFile srcUrl
                (deepDetect w S link { st with polls := st.polls + 1 })).files.length
                  ≤ max 1 S.max_files
              omega
            · rename_i hlt
              refine ih _ nu ?_
              rw [hlen]
              rw [hlen] at hlt
              omega
          · exact ih _ nu (by simpa using h)
        · split
          · exact ih _ _ (by simpa using h)
          · exact ih _ nu (by simpa using h)

/-- The link loop preserves the probe-cache invariants. -/
theorem linkLoop_probe (w : World) (S : Settings) (allowed : List String)
    (srcUrl : String) (d : Nat) (root : String) (links : List String) :
    ∀ st nu, st.probeLog = st.probe_cache.map Prod.fst → st.probeLog.Nodup →
      (∀ pr ∈ st.probe_cache, pr.2 = w.probe pr.1) →
      (linkLoop w S allowed srcUrl d root links st nu).1.probeLog
          = (linkLoop w S allowed srcUrl d root links st nu).1.probe_cache.map Prod.fst ∧
        (linkLoop w S allowed srcUrl d root links st nu).1.probeLog.Nodup ∧
        ∀ pr ∈ (linkLoop w S allowed srcUrl d root links st nu).1.probe_cache,
          pr.2 = w.probe pr.1 := by
  induction links with
  | nil => intro st nu h1 h2 h3; simp only [linkLoop]; exact ⟨h1, h2, h3⟩
  | cons link rest ih =>
    intro st nu h1 h2 h3
    have hdd := deepDetect_probe w S link { st with polls := st.polls + 1 }
      (by simpa using h1) (by simpa using h2) (by simpa using h3)
    obtain ⟨p1, p2, p3⟩ := hdd
    simp only [linkLoop]
    split
    · exact ⟨h1, h2, h3⟩
    · split
      · exact ih _ nu (by simpa using h1) (by simpa using h2) (by simpa using h3)
      · split
        · split
          · split
            · exact ⟨by simpa [recordFile] using p1, by simpa [recordFile] using p2,
                by simpa [recordFile] using p3⟩
            · exact ih _ nu (by simpa [recordFile] using p1)
                (by simpa [recordFile] using p2) (by simpa [recordFile] using p3)
          · exact ih _ nu p1 p2 p3
        · split
          · exact ih _ _ (by simpa using p1) (by simpa using p2) (by simpa using p3)
          · exact ih _ nu p1 p2 p3

/-- The enqueue log grows only by records `(srcUrl, d, link, d + 1)`, and
only when `d < max_depth`. -/
theorem linkLoop_enq (w : World) (S : Settings) (allowed : List String)
    (srcUrl : String) (d : Nat) (root : String) (links : List String) :
    ∀ st nu, ∃ t,
      (linkLoop w S allowed srcUrl d root links st nu).1.enqueueLog
          = st.enqueueLog ++ t ∧
        ∀ q ∈ t, q.1 = srcUrl ∧ q.2.1 = d ∧ q.2.2.2 = d + 1 ∧ d < S.max_depth := by
  induction links with
  | nil => intro st nu; exact ⟨[], by simp [linkLoop], by simp⟩
  | cons link rest ih =>
    intro st nu
    simp only [linkLoop]
    split
    · exact ⟨[], by simp, by simp⟩
    · split
      · obtain ⟨t, ht, hq⟩ := ih _ nu
        exact ⟨t, by simpa using ht, hq⟩
      · split
        · split
          · split
            · exact ⟨[], by simp [recordFile], by simp⟩
            · obtain ⟨t, ht, hq⟩ := ih (recordFile srcUrl
                (deepDetect w S link { st with polls := st.polls + 1 })) nu
              exact ⟨t, by simpa [recordFile] using ht, hq⟩
          · obtain ⟨t, ht, hq⟩ := ih
              ((deepDetect w S link { st with polls := st.polls + 1 }).st) nu
            exact ⟨t, by simpa using ht, hq⟩
        · split
          · rename_i hguard
            have hd : d < S.max_depth := by
              simp only [Bool.and_eq_true, decide_eq_true_eq] at hguard
              exact hguard.1
            obtain ⟨t, ht, hq⟩ := ih
              ({ (deepDetect w S link { st with polls := st.polls + 1 }).st with
                  enqueueLog := (deepDetect w S link { st with polls := st.polls + 1 }).st.enqueueLog
                    ++ [(srcUrl, d,
                         (deepDetect w S link { st with polls := st.polls + 1 }).link, d + 1)] })
              (nu ++
                [((deepDetect w S link { st with polls := st.polls + 1 }).link, d + 1, root)])
            refine ⟨(srcUrl, d,
              (deepDetect w S link { st with polls := st.polls + 1 }).link, d + 1) :: t, ?_, ?_⟩
            · rw [ht]
              simp
            · intro q hqin
              rcases List.mem_cons.mp hqin with h | h
              · subst h; exact ⟨rfl, rfl, rfl, hd⟩
              · exact hq q h
          · obtain ⟨t, ht, hq⟩ := ih
              ((deepDetect w S link { st with polls := st.polls + 1 }).st) nu
            exact ⟨t, by simpa using ht, hq⟩

/-- Every entry the link loop adds to `next_urls` has depth exactly `d + 1`
(added only when `d < max_depth`) and a matching enqueue-log record. -/
theorem linkLoop_nu (w : World) (S : Settings) (allowed : List String)
    (srcUrl : String) (d : Nat) (root : String) (links : List String) :
    ∀ st nu, ∀ e ∈ (linkLoop w S allowed srcUrl d root links st nu).2, e ∈ nu ∨
      (e.2.1 = d + 1 ∧ d < S.max_depth ∧
        ∃ q ∈ (linkLoop w S allowed srcUrl d root links st nu).1.enqueueLog,
          q.2.2.1 = e.1 ∧ q.2.2.2 = e.2.1) := by
  induction links with
  | nil => intro st nu e he; left; simpa [linkLoop] using he
  | cons link rest ih =>
    intro st nu
    simp only [linkLoop]
    split
    · intro e he; left; simpa using he
    · split
      · exact ih _ nu
      · split
        · split
          · split
            · intro e he; left; simpa using he
            · exact ih _ nu
          · exact ih _ nu
        · split
          · rename_i hguard
            have hd : d < S.max_depth := by
              simp only [Bool.and_eq_true, decide_eq_true_eq] at hguard
              exact hguard.1
            intro e he
            rcases ih _ _ e he with hl | hr
            · rcases List.mem_append.mp hl with h | h
              · exact Or.inl h
              · right
                have he0 := List.mem_singleton.mp h
                subst he0
                refine ⟨rfl, hd, ?_⟩
                obtain ⟨t, ht, _⟩ := linkLoop_enq w S allowed srcUrl d root rest
                  ({ (deepDetect w S link { st with polls := st.polls + 1 }).st with
                      enqueueLog := (deepDetect w S link { st with polls := st.polls + 1 }).st.enqueueLog
                        ++ [(srcUrl, d,
                             (deepDetect w S link { st with polls := st.polls + 1 }).link, d + 1)] })
                  (nu ++ [((deepDetect w S link { st with polls := st.polls + 1 }).link, d + 1, root)])
                refine ⟨(srcUrl, d,
                  (deepDetect w S link { st with polls := st.polls + 1 }).link, d + 1), ?_, rfl, rfl⟩
                rw [ht]
                simp
            · exact Or.inr hr
          · exact ih _ nu

/-- The future-completion loop touches neither the queue, the visited set,
the dispatch log nor the finished flag. -/
theorem futLoop_frame (w : World) (S : Settings) (allowed : List String)
    (l : List Entry) :
    ∀ st nu, (futLoop w S allowed l st nu).1.current_level = st.current_level ∧
      (futLoop w S allowed l st nu).1.visited = st.visited ∧
      (futLoop w S allowed l st nu).1.fetchLog = st.fetchLog ∧
      (futLoop w S allowed l st nu).1.finished = st.finished := by
  induction l with
  | nil => intro st nu; simp [futLoop]
  | cons e rest ih =>
    obtain ⟨url, d, root⟩ := e
    intro st nu
    have key : ∀ (st' : CrawlState) (nu' : List Entry),
        st'.current_level = st.current_level → st'.visited = st.visited →
        st'.fetchLog = st.fetchLog → st'.finished = st.finished →
        (futLoop w S allowed rest st' nu').1.current_level = st.current_level ∧
          (futLoop w S allowed rest st' nu').1.visited = st.visited ∧
          (futLoop w S allowed rest st' nu').1.fetchLog = st.fetchLog ∧
          (futLoop w S allowed rest st' nu').1.finished = st.finished := by
      intro st' nu' a b c dd
      obtain ⟨i1, i2, i3, i4⟩ := ih st' nu'
      exact ⟨a ▸ i1, b ▸ i2, c ▸ i3, dd ▸ i4⟩
    simp only [futLoop]
    split
    · simp
    · split
      · exact key _ nu (by simp) (by simp) (by simp) (by simp)
      · split
        · exact key _ nu (by simp) (by simp) (by simp) (by simp)
        · obtain ⟨f1, f2, f3, f4, f5⟩ := linkLoop_frame w S allowed url d root _
            { st with polls := st.polls + 1, pages_done := st.pages_done + 1 } nu
          split
          · exact ⟨by simpa using f2, by simpa using f3, by simpa using f4,
              by simpa using f5⟩
          · exact key _ _ (by simpa using f2) (by simpa using f3)
              (by simpa using f4) (by simpa using f5)

/-- Poll counter only grows in the future loop. -/
theorem futLoop_polls (w : World) (S : Settings) (allowed : List String)
    (l : List Entry) :
    ∀ st nu, st.polls ≤ (futLoop w S allowed l st nu).1.polls := by
  induction l with
  | nil => intro st nu; simp [futLoop]
  | cons e rest ih =>
    obtain ⟨url, d, root⟩ := e
    intro st nu
    have key : ∀ (st' : CrawlState) (nu' : List Entry), st.polls ≤ st'.polls →
        st.polls ≤ (futLoop w S allowed rest st' nu').1.polls := by
      intro st' nu' h
      exact Nat.le_trans h (ih st' nu')
    simp only [futLoop]
    split
    · simp
    · split
      · exact key _ nu (by simp)
      · split
        · exact key _ nu (by simp)
        · rename_i links heq hne
          have hl := linkLoop_polls w S allowed url d root links
            { st with polls := st.polls + 1, pages_done := st.pages_done + 1 } nu
          have hstep : st.polls ≤ ({ st with polls := st.polls + 1, pages_done := st.pages_done + 1 } : CrawlState).polls := Nat.le_succ _
          split
          · exact Nat.le_trans hstep hl
          · exact key _ _ (Nat.le_trans hstep hl)

/-- The result list only grows in the future loop. -/
theorem futLoop_files_mono (w : World) (S : Settings) (allowed : List String)
    (l : List Entry) :
    ∀ st nu, st.files <+: (futLoop w S allowed l st nu).1.files := by
  induction l with
  | nil => intro st nu; simp [futLoop]
  | cons e rest ih =>
    obtain ⟨url, d, root⟩ := e
    intro st nu
    have key : ∀ (st' : CrawlState) (nu' : List Entry), st.files <+: st'.files →
        st.files <+: (futLoop w S allowed rest st' nu').1.files := by
      intro st' nu' h
      exact h.trans (ih st' nu')
    simp only [futLoop]
    split
    · simp
    · split
      · exact key _ nu (by simp)
      · split
        · exact key _ nu (by simp)
        · rename_i links heq hne
          have hl := linkLoop_files_mono w S allowed url d root links
            { st with polls := st.polls + 1, pages_done := st.pages_done + 1 } nu
          split
          · simpa using hl
          · exact key _ _ (by simpa using hl)

/-- The future loop preserves the dedup invariant. -/
theorem futLoop_filesSeen (w : World) (S : Settings) (allowed : List String)
    (l : List Entry) :
    ∀ st nu, st.files.map (fun f => f.url) = st.seen_files → st.seen_files.Nodup →
      (futLoop w S allowed l st nu).1.files.map (fun f => f.url)
          = (futLoop w S allowed l st nu).1.seen_files ∧
        (futLoop w S allowed l st nu).1.seen_files.Nodup := by
  induction l with
  | nil => intro st nu h1 h2; simp only [futLoop]; exact ⟨h1, h2⟩
  | cons e rest ih =>
    obtain ⟨url, d, root⟩ := e
    intro st nu h1 h2
    simp only [futLoop]
    split
    · exact ⟨h1, h2⟩
    · split
      · exact ih _ nu (by simpa using h1) (by simpa using h2)
      · split
        · exact ih _ nu (by simpa using h1) (by simpa using h2)
        · rename_i links heq hne
          have hl := linkLoop_filesSeen w S allowed url d root links
            { st with polls := st.polls + 1, pages_done := st.pages_done + 1 } nu
            (by simpa using h1) (by simpa using h2)
          split
          · exact hl
          · exact ih _ _ hl.1 hl.2

/-- The future loop preserves the probe-cache invariants. -/
theorem futLoop_probe (w : World) (S : Settings) (allowed : List String)
    (l : List Entry) :
    ∀ st nu, st.probeLog = st.probe_cache.map Prod.fst → st.probeLog.Nodup →
      (∀ pr ∈ st.probe_cache, pr.2 = w.probe pr.1) →
      (futLoop w S allowed l st nu).1.probeLog
          = (futLoop w S allowed l st nu).1.probe_cache.map Prod.fst ∧
        (futLoop w S allowed l st nu).1.probeLog.Nodup ∧
        ∀ pr ∈ (futLoop w S allowed l st nu).1.probe_cache, pr.2 = w.probe pr.1 := by
  induction l with
  | nil => intro st nu h1 h2 h3; simp only [futLoop]; exact ⟨h1, h2, h3⟩
  | cons e rest ih =>
    obtain ⟨url, d, root⟩ := e
    intro st nu h1 h2 h3
    simp only [futLoop]
    split
    · exact ⟨h1, h2, h3⟩
    · split
      · exact ih _ nu (by simpa using h1) (by simpa using h2) (by simpa using h3)
      · split
        · exact ih _ nu (by simpa using h1) (by simpa using h2) (by simpa using h3)
        · rename_i links heq hne
          have hl := linkLoop_probe w S allowed url d root links
            { st with polls := st.polls + 1, pages_done := st.pages_done + 1 } nu
            (by simpa using h1) (by simpa using h2) (by simpa using h3)
          split
          · exact hl
          · exact ih _ _ hl.1 hl.2.1 hl.2.2

/-- The future loop keeps the result list within `max 1 max_files`. -/
theorem futLoop_files_bound (w : World) (S : Settings) (allowed : List String)
    (l : List Entry) :
    ∀ st nu, st.files.length < max 1 S.max_files →
      (futLoop w S allowed l st nu).1.files.length ≤ max 1 S.max_files := by
  induction l with
  | nil => intro st nu h; simp only [futLoop]; omega
  | cons e rest ih =>
    obtain ⟨url, d, root⟩ := e
    intro st nu h
    simp only [futLoop]
    split
    · simpa using Nat.le_of_lt h
    · split
      · exact ih _ nu (by simpa using h)
      · split
        · exact ih _ nu (by simpa using h)
        · rename_i links heq hne
          have hl := linkLoop_files_bound w S allowed url d root links
            { st with polls := st.polls + 1, pages_done := st.pages_done + 1 } nu
            (by simpa using h)
          split
          · exact hl
          · rename_i hcond
            refine ih _ _ ?_
            simp only [Bool.or_eq_true, decide_eq_true_eq, not_or] at hcond
            omega

/-- `pages_done` increases by at most one per completed future. -/
theorem futLoop_pages (w : World) (S : Settings) (allowed : List String)
    (l : List Entry) :
    ∀ st nu, (futLoop w S allowed l st nu).1.pages_done
      ≤ st.pages_done + l.length := by
  induction l with
  | nil => intro st nu; simp [futLoop]
  | cons e rest ih =>
    obtain ⟨url, d, root⟩ := e
    intro st nu
    simp only [futLoop]
    split
    · simp
    · split
      · have := ih { st with polls := st.polls + 1, pages_done := st.pages_done + 1 } nu
        simp only [List.length_cons] at this ⊢
        omega
      · split
        · have := ih { st with polls := st.polls + 1, pages_done := st.pages_done + 1 } nu
          simp only [List.length_cons] at this ⊢
          omega
        · rename_i links heq hne
          obtain ⟨lf, _, _, _, _⟩ := linkLoop_frame w S allowed url d root links
            { st with polls := st.polls + 1, pages_done := st.pages_done + 1 } nu
          simp only [CrawlState.pages_done] at lf
          split
          · simp only [List.length_cons]
            omega
          · have := ih (linkLoop w S allowed url d root links
              { st with polls := st.polls + 1, pages_done := st.pages_done + 1 } nu).1
              (linkLoop w S allowed url d root links
                { st with polls := st.polls + 1, pages_done := st.pages_done + 1 } nu).2
            simp only [List.length_cons] at this ⊢
            omega

/-- The enqueue log only grows in the link loop. -/
theorem linkLoop_enq_mono (w : World) (S : Settings) (allowed : List String)
    (srcUrl : String) (d : Nat) (root : String) (links : List String)
    (st : CrawlState) (nu : List Entry) :
    st.enqueueLog <+: (linkLoop w S allowed srcUrl d root links st nu).1.enqueueLog := by
  obtain ⟨t, ht, _⟩ := linkLoop_enq w S allowed srcUrl d root links st nu
  rw [ht]
  exact List.prefix_append _ _

/-- The enqueue log only grows in the future loop. -/
theorem futLoop_enq_mono (w : World) (S : Settings) (allowed : List String)
    (l : List Entry) :
    ∀ st nu, st.enqueueLog <+: (futLoop w S allowed l st nu).1.enqueueLog := by
  induction l with
  | nil => intro st nu; simp [futLoop]
  | cons e rest ih =>
    obtain ⟨url, d, root⟩ := e
    intro st nu
    have key : ∀ (st' : CrawlState) (nu' : List Entry), st.enqueueLog <+: st'.enqueueLog →
        st.enqueueLog <+: (futLoop w S allowed rest st' nu').1.enqueueLog := by
      intro st' nu' h
      exact h.trans (ih st' nu')
    simp only [futLoop]
    split
    · simp
    · split
      · exact key _ nu (by simp)
      · split
        · exact key _ nu (by simp)
        · rename_i links heq hne
          have hl := linkLoop_enq_mono w S allowed url d root links
            { st with polls := st.polls + 1, pages_done := st.pages_done + 1 } nu
          split
          · simpa using hl
          · exact key _ _ (by simpa using hl)

/-- Every record the future loop adds to the enqueue log steps depth by
exactly one from a page it dispatched (i.e. one in `fetchLog`). -/
theorem futLoop_enq (w : World) (S : Settings) (allowed : List String)
    (l : List Entry) :
    ∀ st nu, (∀ e ∈ l, ((e.1 : String), (e.2.1 : Nat)) ∈ st.fetchLog) →
      ∃ t, (futLoop w S allowed l st nu).1.enqueueLog = st.enqueueLog ++ t ∧
        ∀ q ∈ t, q.2.2.2 = q.2.1 + 1 ∧ (q.1, q.2.1) ∈ st.fetchLog := by
  induction l with
  | nil => intro st nu _; exact ⟨[], by simp [futLoop], by simp⟩
  | cons e rest ih =>
    obtain ⟨url, d, root⟩ := e
    intro st nu hsrc
    have hsrc_head : (url, d) ∈ st.fetchLog := hsrc (url, d, root) (List.mem_cons_self _ _)
    have hsrc_rest : ∀ e ∈ rest, ((e.1 : String), (e.2.1 : Nat)) ∈ st.fetchLog :=
      fun e he => hsrc e (List.mem_cons_of_mem _ he)
    simp only [futLoop]
    split
    · exact ⟨[], by simp, by simp⟩
    · split
      · obtain ⟨t, ht, hq⟩ :=
          ih { st with polls := st.polls + 1, pages_done := st.pages_done + 1 } nu
            (by simpa using hsrc_rest)
        exact ⟨t, by simpa using ht, hq⟩
      · split
        · obtain ⟨t, ht, hq⟩ :=
            ih { st with polls := st.polls + 1, pages_done := st.pages_done + 1 } nu
              (by simpa using hsrc_rest)
          exact ⟨t, by simpa using ht, hq⟩
        · rename_i links heq hne
          obtain ⟨t1, ht1, hq1⟩ := linkLoop_enq w S allowed url d root links
            { st with polls := st.polls + 1, pages_done := st.pages_done + 1 } nu
          have hq1' : ∀ q ∈ t1, q.2.2.2 = q.2.1 + 1 ∧ (q.1, q.2.1) ∈ st.fetchLog := by
            intro q hq
            obtain ⟨e1, e2, e3, _⟩ := hq1 q hq
            refine ⟨by rw [e3, e2], ?_⟩
            rw [e1, e2]
            exact hsrc_head
          obtain ⟨ff1, ff2, ff3, ff4, ff5⟩ := linkLoop_frame w S allowed url d root links
            { st with polls := st.polls + 1, pages_done := st.pages_done + 1 } nu
          split
          · exact ⟨t1, by simpa using ht1, hq1'⟩
          · obtain ⟨t2, ht2, hq2⟩ := ih
              (linkLoop w S allowed url d root links
                { st with polls := st.polls + 1, pages_done := st.pages_done + 1 } nu).1
              (linkLoop w S allowed url d root links
                { st with polls := st.polls + 1, pages_done := st.pages_done + 1 } nu).2
              (by rw [ff4]; simpa using hsrc_rest)
            refine ⟨t1 ++ t2, ?_, ?_⟩
            · rw [ht2, ht1]
              simp
            · intro q hq
              rcases List.mem_append.mp hq with h | h
              · exact hq1' q h
              · obtain ⟨a, b⟩ := hq2 q h
                refine ⟨a, ?_⟩
                rw [ff4] at b
                simpa using b

/-- Every entry the future loop adds to `next_urls` has depth at most
`max_depth` and a matching enqueue-log record in the final state. -/
theorem futLoop_nu (w : World) (S : Settings) (allowed : List String)
    (l : List Entry) :
    ∀ st nu, ∀ e ∈ (futLoop w S allowed l st nu).2, e ∈ nu ∨
      ((e.2.1 : Nat) ≤ S.max_depth ∧
        ∃ q ∈ (futLoop w S allowed l st nu).1.enqueueLog,
          q.2.2.1 = e.1 ∧ q.2.2.2 = e.2.1) := by
  induction l with
  | nil => intro st nu e he; left; simpa [futLoop] using he
  | cons en rest ih =>
    obtain ⟨url, d, root⟩ := en
    intro st nu
    simp only [futLoop]
    split
    · intro e he; left; simpa using he
    · split
      · exact ih _ nu
      · split
        · exact ih _ nu
        · rename_i links heq hne
          split
          · -- batch break: the result is the link loop's output directly
            intro e he
            rcases linkLoop_nu w S allowed url d root links
              { st with polls := st.polls + 1, pages_done := st.pages_done + 1 } nu e he
              with h | ⟨h1, h2, q, hqmem, hq1, hq2⟩
            · exact Or.inl h
            · exact Or.inr ⟨by omega, q, hqmem, hq1, hq2⟩
          · intro e he
            rcases ih (linkLoop w S allowed url d root links
                { st with polls := st.polls + 1, pages_done := st.pages_done + 1 } nu).1
                (linkLoop w S allowed url d root links
                  { st with polls := st.polls + 1, pages_done := st.pages_done + 1 } nu).2
                e he with h | ⟨h1, q, hqmem, hq1, hq2⟩
            · rcases linkLoop_nu w S allowed url d root links
                { st with polls := st.polls + 1, pages_done := st.pages_done + 1 } nu e h
                with h' | ⟨h1', h2', q, hqmem, hq1, hq2⟩
              · exact Or.inl h'
              · refine Or.inr ⟨by omega, q, ?_, hq1, hq2⟩
                exact (futLoop_enq_mono w S allowed rest _ _).subset hqmem
            · exact Or.inr ⟨h1, q, hqmem, hq1, hq2⟩

/-- The run invariant of the crawler state: dedup of recorded files, probe
memoization, depth and budget ceilings, and the provenance of enqueued and
dispatched pages. -/
structure Inv (w : World) (S : Settings) (st : CrawlState) : Prop where
  filesSeen : st.files.map (fun f => f.url) = st.seen_files
  seenNodup : st.seen_files.Nodup
  probeKeys : st.probeLog = st.probe_cache.map Prod.fst
  probeNodup : st.probeLog.Nodup
  cacheSound : ∀ pr ∈ st.probe_cache, pr.2 = w.probe pr.1
  levelDepth : ∀ e ∈ st.current_level, (e.2.1 : Nat) ≤ S.max_depth
  fetchDepth : ∀ p ∈ st.fetchLog, (p.2 : Nat) ≤ S.max_depth
  pagesLe : st.pages_done ≤ S.max_pages
  filesLe : st.files.length ≤ max 1 S.max_files
  filesLt : st.finished = false → st.files.length < max 1 S.max_files
  enqStep : ∀ q ∈ st.enqueueLog, (q.2.2.2 : Nat) = q.2.1 + 1
  enqSrc : ∀ q ∈ st.enqueueLog, ((q.1 : String), (q.2.1 : Nat)) ∈ st.fetchLog
  fetchOrigin : ∀ p ∈ st.fetchLog, (p.2 : Nat) = 0 ∨
    ∃ q ∈ st.enqueueLog, q.2.2.1 = p.1 ∧ q.2.2.2 = p.2
  levelOrigin : ∀ e ∈ st.current_level, (e.2.1 : Nat) = 0 ∨
    ∃ q ∈ st.enqueueLog, q.2.2.1 = e.1 ∧ q.2.2.2 = e.2.1

/-- The iteration body preserves the run invariant (entered only with the
page budget open and room below the file ceiling, as the loop's entry checks
guarantee). -/
theorem stepCore_inv (w : World) (S : Settings) (allowed : List String)
    (st : CrawlState) (d0 : Nat)
    (hpages : st.pages_done < S.max_pages)
    (hfiles : st.files.length < max 1 S.max_files)
    (h : Inv w S st) :
    Inv w S (stepCore w S allowed st d0) := by
  simp only [stepCore]
  set b := max 1 (S.max_pages - st.pages_done) with hb
  set batch := st.current_level.take b with hbatch
  set A := { st with current_level := st.current_level.drop b } with hA
  set sub := submitBatch batch A with hsub
  set r := futLoop w S allowed (sortByPrio w.priority sub.2) sub.1 [] with hr
  -- submission facts
  obtain ⟨sb1, sb2, sb3, sb4, sb5, sb6, sb7, sb8, sb9⟩ := submitBatch_frame batch A
  obtain ⟨sf1, sf2, sf3⟩ := submitBatch_futs batch A
  rw [← hsub] at sb1 sb2 sb3 sb4 sb5 sb6 sb7 sb8 sb9 sf1 sf2 sf3
  have hAfiles : A.files = st.files := by rw [hA]
  have hAseen : A.seen_files = st.seen_files := by rw [hA]
  have hAfetch : A.fetchLog = st.fetchLog := by rw [hA]
  have hAenq : A.enqueueLog = st.enqueueLog := by rw [hA]
  have hApages : A.pages_done = st.pages_done := by rw [hA]
  have hAlevel : A.current_level = st.current_level.drop b := by rw [hA]
  -- futures come from the batch, hence from the queue
  have hfut_level : ∀ e ∈ sub.2, e ∈ st.current_level := by
    intro e he
    exact List.mem_of_mem_take (hbatch ▸ sf3 e he)
  -- every dispatched future is in the post-submission fetch log
  have hfutsrc : ∀ e ∈ sortByPrio w.priority sub.2,
      ((e.1 : String), (e.2.1 : Nat)) ∈ sub.1.fetchLog := by
    intro e he
    rw [sf1]
    exact List.mem_append_right _
      (List.mem_map_of_mem _ (sortByPrio_mem he))
  -- completion-loop facts
  obtain ⟨ff1, ff2, ff3, ff4⟩ :=
    futLoop_frame w S allowed (sortByPrio w.priority sub.2) sub.1 []
  rw [← hr] at ff1 ff2 ff3 ff4
  have hrpages : r.1.pages_done ≤ S.max_pages := by
    have hp := futLoop_pages w S allowed (sortByPrio w.priority sub.2) sub.1 []
    rw [← hr] at hp
    have hlen : (sortByPrio w.priority sub.2).length ≤ batch.length :=
      (sortByPrio_length w.priority sub.2) ▸ sf2
    have hbl : batch.length ≤ b := by
      rw [hbatch]
      exact List.length_take_le _ _
    rw [sb5, hApages] at hp
    omega
  have hrseen := futLoop_filesSeen w S allowed (sortByPrio w.priority sub.2) sub.1 []
    (by rw [sb1, sb2, hAfiles, hAseen]; exact h.filesSeen)
    (by rw [sb2, hAseen]; exact h.seenNodup)
  rw [← hr] at hrseen
  have hrprobe := futLoop_probe w S allowed (sortByPrio w.priority sub.2) sub.1 []
    (by rw [sb3, sb4]; exact h.probeKeys)
    (by rw [sb4]; exact h.probeNodup)
    (by rw [sb3]; exact h.cacheSound)
  rw [← hr] at hrprobe
  have hrbound := futLoop_files_bound w S allowed (sortByPrio w.priority sub.2) sub.1 []
    (by rw [sb1, hAfiles]; exact hfiles)
  rw [← hr] at hrbound
  obtain ⟨tE, htE, hqE⟩ :=
    futLoop_enq w S allowed (sortByPrio w.priority sub.2) sub.1 [] hfutsrc
  rw [← hr] at htE
  have hrnu := futLoop_nu w S allowed (sortByPrio w.priority sub.2) sub.1 []
  rw [← hr] at hrnu
  -- the post-iteration fetch log and enqueue log
  have hrfetch : r.1.fetchLog = st.fetchLog ++ sub.2.map (fun e => (e.1, e.2.1)) := by
    rw [ff3, sf1, hAfetch]
  have hrenq : r.1.enqueueLog = st.enqueueLog ++ tE := by
    rw [htE, sb7, hAenq]
  have hfetchDepth_r : ∀ p ∈ r.1.fetchLog, (p.2 : Nat) ≤ S.max_depth := by
    intro p hp
    rw [hrfetch] at hp
    rcases List.mem_append.mp hp with hold | hnew
    · exact h.fetchDepth p hold
    · obtain ⟨e, he, hpe⟩ := List.mem_map.mp hnew
      rw [← hpe]
      exact h.levelDepth e (hfut_level e he)
  have hfetchOrigin_r : ∀ p ∈ r.1.fetchLog, (p.2 : Nat) = 0 ∨
      ∃ q ∈ r.1.enqueueLog, q.2.2.1 = p.1 ∧ q.2.2.2 = p.2 := by
    intro p hp
    rw [hrfetch] at hp
    rcases List.mem_append.mp hp with hold | hnew
    · rcases h.fetchOrigin p hold with h0 | ⟨q, hq, hq1, hq2⟩
      · exact Or.inl h0
      · exact Or.inr ⟨q, by rw [hrenq]; exact List.mem_append_left _ hq, hq1, hq2⟩
    · obtain ⟨e, he, hpe⟩ := List.mem_map.mp hnew
      rcases h.levelOrigin e (hfut_level e he) with h0 | ⟨q, hq, hq1, hq2⟩
      · left; rw [← hpe]; exact h0
      · right
        exact ⟨q, by rw [hrenq]; exact List.mem_append_left _ hq,
          by rw [← hpe]; exact ⟨hq1, hq2⟩⟩
  have hEnqStep_r : ∀ q ∈ r.1.enqueueLog, (q.2.2.2 : Nat) = q.2.1 + 1 := by
    intro q hq
    rw [hrenq] at hq
    rcases List.mem_append.mp hq with hold | hnew
    · exact h.enqStep q hold
    · exact (hqE q hnew).1
  have hEnqSrc_r : ∀ q ∈ r.1.enqueueLog, ((q.1 : String), (q.2.1 : Nat)) ∈ r.1.fetchLog := by
    intro q hq
    rw [hrenq] at hq
    rcases List.mem_append.mp hq with hold | hnew
    · rw [hrfetch]
      exact List.mem_append_left _ (h.enqSrc q hold)
    · have := (hqE q hnew).2
      rw [← ff3] at this
      exact this
  -- the two candidate post-push states
  have hlevel_base : ∀ e ∈ r.1.current_level, e ∈ st.current_level.drop b := by
    intro e he
    rw [ff1, sb6, hAlevel] at he
    exact he
  -- now the final state
  set st2 := (if d0 < S.max_depth then pushNext r.1 r.2 else r.1) with hst2
  obtain ⟨p1, p2, p3, p4, p5, p6, p7, p8, p9, p10, tP, htP, hmP⟩ := pushNext_spec r.2 r.1
  have hst2_files : st2.files = r.1.files := by
    rw [hst2]; split
    · exact p1
    · rfl
  have hst2_seen : st2.seen_files = r.1.seen_files := by
    rw [hst2]; split
    · exact p2
    · rfl
  have hst2_probe : st2.probe_cache = r.1.probe_cache := by
    rw [hst2]; split
    · exact p3
    · rfl
  have hst2_probeLog : st2.probeLog = r.1.probeLog := by
    rw [hst2]; split
    · exact p4
    · rfl
  have hst2_pages : st2.pages_done = r.1.pages_done := by
    rw [hst2]; split
    · exact p5
    · rfl
  have hst2_fetch : st2.fetchLog = r.1.fetchLog := by
    rw [hst2]; split
    · exact p7
    · rfl
  have hst2_enq : st2.enqueueLog = r.1.enqueueLog := by
    rw [hst2]; split
    · exact p8
    · rfl
  -- per-entry facts about the final queue
  have hst2_level' : ∀ e ∈ st2.current_level, e ∈ st.current_level.drop b ∨ e ∈ tP := by
    intro e he
    rw [hst2] at he
    by_cases hd : d0 < S.max_depth
    · rw [if_pos hd] at he
      rw [htP] at he
      rcases List.mem_append.mp he with h1 | h2
      · exact Or.inl (hlevel_base e h1)
      · exact Or.inr h2
    · rw [if_neg hd] at he
      exact Or.inl (hlevel_base e he)
  have htP_nu : ∀ e ∈ tP, (e.2.1 : Nat) ≤ S.max_depth ∧
      ∃ q ∈ r.1.enqueueLog, q.2.2.1 = e.1 ∧ q.2.2.2 = e.2.1 := by
    intro e he
    rcases hrnu e (hmP e he) with habs | hgood
    · exact absurd habs (List.not_mem_nil e)
    · exact hgood
  -- the invariant fields for st2 (all but the strict ceiling, handled by
  -- the final `finished` flip)
  have c1 : st2.files.map (fun f => f.url) = st2.seen_files := by
    rw [hst2_files, hst2_seen]; exact hrseen.1
  have c2 : st2.seen_files.Nodup := by rw [hst2_seen]; exact hrseen.2
  have c3 : st2.probeLog = st2.probe_cache.map Prod.fst := by
    rw [hst2_probeLog, hst2_probe]; exact hrprobe.1
  have c4 : st2.probeLog.Nodup := by rw [hst2_probeLog]; exact hrprobe.2.1
  have c5 : ∀ pr ∈ st2.probe_cache, pr.2 = w.probe pr.1 := by
    rw [hst2_probe]; exact hrprobe.2.2
  have c6 : ∀ e ∈ st2.current_level, (e.2.1 : Nat) ≤ S.max_depth := by
    intro e he
    rcases hst2_level' e he with h1 | h2
    · exact h.levelDepth e (List.mem_of_mem_drop h1)
    · exact (htP_nu e h2).1
  have c7 : ∀ p ∈ st2.fetchLog, (p.2 : Nat) ≤ S.max_depth := by
    intro p hp
    rw [hst2_fetch] at hp
    exact hfetchDepth_r p hp
  have c8 : st2.pages_done ≤ S.max_pages := by rw [hst2_pages]; exact hrpages
  have c9 : st2.files.length ≤ max 1 S.max_files := by
    rw [hst2_files]; exact hrbound
  have c11 : ∀ q ∈ st2.enqueueLog, (q.2.2.2 : Nat) = q.2.1 + 1 := by
    intro q hq
    rw [hst2_enq] at hq
    exact hEnqStep_r q hq
  have c12 : ∀ q ∈ st2.enqueueLog, ((q.1 : String), (q.2.1 : Nat)) ∈ st2.fetchLog := by
    intro q hq
    rw [hst2_enq] at hq
    rw [hst2_fetch]
    exact hEnqSrc_r q hq
  have c13 : ∀ p ∈ st2.fetchLog, (p.2 : Nat) = 0 ∨
      ∃ q ∈ st2.enqueueLog, q.2.2.1 = p.1 ∧ q.2.2.2 = p.2 := by
    intro p hp
    rw [hst2_fetch] at hp
    rcases hfetchOrigin_r p hp with h0 | ⟨q, hq, hq1, hq2⟩
    · exact Or.inl h0
    · exact Or.inr ⟨q, by rw [hst2_enq]; exact hq, hq1, hq2⟩
  have c14 : ∀ e ∈ st2.current_level, (e.2.1 : Nat) = 0 ∨
      ∃ q ∈ st2.enqueueLog, q.2.2.1 = e.1 ∧ q.2.2.2 = e.2.1 := by
    intro e he
    rcases hst2_level' e he with h1 | h2
    · rcases h.levelOrigin e (List.mem_of_mem_drop h1) with h0 | ⟨q, hq, hq1, hq2⟩
      · exact Or.inl h0
      · refine Or.inr ⟨q, ?_, hq1, hq2⟩
        rw [hst2_enq, hrenq]
        exact List.mem_append_left _ hq
    · obtain ⟨_, q, hq, hq1, hq2⟩ := htP_nu e h2
      exact Or.inr ⟨q, by rw [hst2_enq]; exact hq, hq1, hq2⟩
  split
  · -- file ceiling reached: mark finished; every other field is unchanged
    exact ⟨c1, c2, c3, c4, c5, c6, c7, c8, c9,
      fun hc => absurd hc (by simp), c11, c12, c13, c14⟩
  · rename_i hlt
    refine ⟨c1, c2, c3, c4, c5, c6, c7, c8, c9, fun _ => ?_, c11, c12, c13, c14⟩
    omega

/-- One loop iteration preserves the run invariant. -/
theorem crawlStep_inv (w : World) (S : Settings) (allowed : List String)
    (st : CrawlState) (hfin : st.finished = false) (h : Inv w S st) :
    Inv w S (crawlStep w S allowed st) := by
  simp only [crawlStep]
  split
  · exact ⟨h.filesSeen, h.seenNodup, h.probeKeys, h.probeNodup, h.cacheSound,
      h.levelDepth, h.fetchDepth, h.pagesLe, h.filesLe,
      fun hc => absurd hc (by simp), h.enqStep, h.enqSrc, h.fetchOrigin,
      h.levelOrigin⟩
  · split
    · exact ⟨h.filesSeen, h.seenNodup, h.probeKeys, h.probeNodup, h.cacheSound,
        h.levelDepth, h.fetchDepth, h.pagesLe, h.filesLe,
        fun hc => absurd hc (by simp), h.enqStep, h.enqSrc, h.fetchOrigin,
        h.levelOrigin⟩
    · split
      · exact ⟨h.filesSeen, h.seenNodup, h.probeKeys, h.probeNodup, h.cacheSound,
          h.levelDepth, h.fetchDepth, h.pagesLe, h.filesLe,
          fun hc => absurd hc (by simp), h.enqStep, h.enqSrc, h.fetchOrigin,
          h.levelOrigin⟩
      · rename_i hcond
        refine stepCore_inv w S allowed _ _ ?_ ?_ ?_
        · simpa using Nat.lt_of_not_le (by simpa using hcond)
        · simpa using h.filesLt hfin
        · exact ⟨h.filesSeen, h.seenNodup, h.probeKeys, h.probeNodup, h.cacheSound,
            h.levelDepth, h.fetchDepth, h.pagesLe, h.filesLe,
            fun _ => h.filesLt hfin, h.enqStep, h.enqSrc, h.fetchOrigin,
            h.levelOrigin⟩

/-- The initial state satisfies the run invariant. -/
theorem initState_inv (w : World) (S : Settings) (seeds : List String) :
    Inv w S (initState w S seeds) := by
  refine ⟨rfl, List.nodup_nil, rfl, List.nodup_nil, by simp [initState], ?_,
    by simp [initState], Nat.zero_le _, by simp [initState],
    fun _ => Nat.lt_of_lt_of_le Nat.zero_lt_one (le_max_left 1 _),
    by simp [initState], by simp [initState], by simp [initState], ?_⟩
  · intro e he
    simp only [initState, List.mem_map] at he
    obtain ⟨u, _, hu⟩ := he
    rw [← hu]
    exact Nat.zero_le _
  · intro e he
    simp only [initState, List.mem_map] at he
    obtain ⟨u, _, hu⟩ := he
    left
    rw [← hu]

/-- A finished state is a fixed point of the loop. -/
theorem crawlLoop_finished (w : World) (S : Settings) (allowed : List String)
    (fuel : Nat) (st : CrawlState) (hfin : st.finished = true) :
    crawlLoop w S allowed fuel st = st := by
  cases fuel with
  | zero => rfl
  | succ n =>
    simp only [crawlLoop]
    rw [if_pos hfin]

/-- The whole loop preserves the run invariant. -/
theorem crawlLoop_inv (w : World) (S : Settings) (allowed : List String)
    (fuel : Nat) :
    ∀ st, Inv w S st → Inv w S (crawlLoop w S allowed fuel st) := by
  induction fuel with
  | zero => intro st h; exact h
  | succ n ih =>
    intro st h
    simp only [crawlLoop]
    split
    · exact h
    · rename_i hc
      have hfin : st.finished = false := by simpa using hc
      exact ih _ (crawlStep_inv w S allowed st hfin h)

/-- The iteration body only appends to the result list. -/
theorem stepCore_files_mono (w : World) (S : Settings) (allowed : List String)
    (st : CrawlState) (d0 : Nat) :
    st.files <+: (stepCore w S allowed st d0).files := by
  simp only [stepCore]
  set b := max 1 (S.max_pages - st.pages_done) with hb
  set batch := st.current_level.take b with hbatch
  set A := { st with current_level := st.current_level.drop b } with hA
  set sub := submitBatch batch A with hsub
  set r := futLoop w S allowed (sortByPrio w.priority sub.2) sub.1 [] with hr
  have hsf : sub.1.files = st.files := by
    have := (submitBatch_frame batch A).1
    rw [← hsub] at this
    rw [this, hA]
  have hpre : st.files <+: r.1.files := by
    have hm := futLoop_files_mono w S allowed (sortByPrio w.priority sub.2) sub.1 []
    rw [← hr, hsf] at hm
    exact hm
  set st2 := (if d0 < S.max_depth then pushNext r.1 r.2 else r.1) with hst2
  have hst2f : st2.files = r.1.files := by
    rw [hst2]; split
    · exact (pushNext_spec r.2 r.1).1
    · rfl
  split
  · show st.files <+: st2.files
    rw [hst2f]; exact hpre
  · show st.files <+: st2.files
    rw [hst2f]; exact hpre

/-- One loop iteration only appends to the result list. -/
theorem crawlStep_files_mono (w : World) (S : Settings) (allowed : List String)
    (st : CrawlState) :
    st.files <+: (crawlStep w S allowed st).files := by
  simp only [crawlStep]
  split
  · simp
  · split
    · simp
    · split
      · simp
      · simpa using
          stepCore_files_mono w S allowed { st with polls := st.polls + 1 } _

/-- The whole loop only appends to the result list. -/
theorem crawlLoop_files_mono (w : World) (S : Settings) (allowed : List String)
    (fuel : Nat) :
    ∀ st, st.files <+: (crawlLoop w S allowed fuel st).files := by
  induction fuel with
  | zero => intro st; exact List.prefix_rfl
  | succ n ih =>
    intro st
    simp only [crawlLoop]
    split
    · exact List.prefix_rfl
    · exact (crawlStep_files_mono w S allowed st).trans (ih _)

/-- Loop runs compose over fuel. -/
theorem crawlLoop_add (w : World) (S : Settings) (allowed : List String)
    (m n : Nat) :
    ∀ st, crawlLoop w S allowed (m + n) st
      = crawlLoop w S allowed n (crawlLoop w S allowed m st) := by
  induction m with
  | zero => intro st; rw [Nat.zero_add]; rfl
  | succ k ih =>
    intro st
    have hms : k + 1 + n = (k + n) + 1 := by omega
    rw [hms]
    simp only [crawlLoop]
    split
    · rename_i hfin
      rw [crawlLoop_finished w S allowed n st hfin]
    · exact ih _

/-- A poll that answers `true` ends the iteration at once: the state is
only marked finished (and the poll counted). -/
theorem crawlStep_stopped (w : World) (S : Settings) (allowed : List String)
    (st : CrawlState) (hstop : w.stop st.polls = true) :
    (crawlStep w S allowed st).files = st.files ∧
    (crawlStep w S allowed st).fetchLog = st.fetchLog ∧
    (crawlStep w S allowed st).pages_done = st.pages_done ∧
    (crawlStep w S allowed st).enqueueLog = st.enqueueLog ∧
    (crawlStep w S allowed st).finished = true := by
  simp only [crawlStep]
  split
  · simp
  · split
    · simp
    · rename_i hc
      exact absurd hstop hc

/-- Once the stop predicate answers `true` from the current poll index
onward, the rest of the run changes nothing: no fetch is dispatched, no file
recorded, no link enqueued. -/
theorem crawlLoop_stopped (w : World) (S : Settings) (allowed : List String)
    (fuel : Nat) (st : CrawlState)
    (h : ∀ n, st.polls ≤ n → w.stop n = true) :
    (crawlLoop w S allowed fuel st).files = st.files ∧
    (crawlLoop w S allowed fuel st).fetchLog = st.fetchLog ∧
    (crawlLoop w S allowed fuel st).pages_done = st.pages_done ∧
    (crawlLoop w S allowed fuel st).enqueueLog = st.enqueueLog := by
  cases fuel with
  | zero => exact ⟨rfl, rfl, rfl, rfl⟩
  | succ n =>
    simp only [crawlLoop]
    split
    · exact ⟨rfl, rfl, rfl, rfl⟩
    · obtain ⟨a, b, c, d, e⟩ := crawlStep_stopped w S allowed st (h st.polls Nat.le.refl)
      rw [crawlLoop_finished w S allowed n _ e]
      exact ⟨a, b, c, d⟩

/-- Every fetch the iteration body dispatches comes from the current queue. -/
theorem stepCore_fetch (w : World) (S : Settings) (allowed : List String)
    (st : CrawlState) (d0 : Nat) :
    ∀ p ∈ (stepCore w S allowed st d0).fetchLog,
      p ∈ st.fetchLog ∨ ∃ e ∈ st.current_level, p = ((e.1 : String), (e.2.1 : Nat)) := by
  simp only [stepCore]
  set b := max 1 (S.max_pages - st.pages_done) with hb
  set batch := st.current_level.take b with hbatch
  set A := { st with current_level := st.current_level.drop b } with hA
  set sub := submitBatch batch A with hsub
  set r := futLoop w S allowed (sortByPrio w.priority sub.2) sub.1 [] with hr
  obtain ⟨sf1, sf2, sf3⟩ := submitBatch_futs batch A
  rw [← hsub] at sf1 sf3
  obtain ⟨ff1, ff2, ff3, ff4⟩ :=
    futLoop_frame w S allowed (sortByPrio w.priority sub.2) sub.1 []
  rw [← hr] at ff3
  have hAfetch : A.fetchLog = st.fetchLog := by rw [hA]
  set st2 := (if d0 < S.max_depth then pushNext r.1 r.2 else r.1) with hst2
  have hst2f : st2.fetchLog = r.1.fetchLog := by
    rw [hst2]; split
    · exact (pushNext_spec r.2 r.1).2.2.2.2.2.2.1
    · rfl
  intro p hp
  have hpf : p ∈ st2.fetchLog := by
    revert hp
    split
    · intro hp; exact hp
    · intro hp; exact hp
  rw [hst2f, ff3, sf1, hAfetch] at hpf
  rcases List.mem_append.mp hpf with hold | hnew
  · exact Or.inl hold
  · obtain ⟨e, he, hpe⟩ := List.mem_map.mp hnew
    exact Or.inr ⟨e, List.mem_of_mem_take (hbatch ▸ sf3 e he), hpe.symm⟩

/-- Every fetch a loop iteration dispatches comes from the current queue. -/
theorem crawlStep_fetch (w : World) (S : Settings) (allowed : List String)
    (st : CrawlState) :
    ∀ p ∈ (crawlStep w S allowed st).fetchLog,
      p ∈ st.fetchLog ∨ ∃ e ∈ st.current_level, p = ((e.1 : String), (e.2.1 : Nat)) := by
  simp only [crawlStep]
  split
  · intro p hp; exact Or.inl hp
  · split
    · intro p hp; exact Or.inl hp
    · split
      · intro p hp; exact Or.inl hp
      · intro p hp
        exact stepCore_fetch w S allowed { st with polls := st.polls + 1 } _ p hp

/-! ### Claim theorems -/

/-- C1: in every run of `crawl_requests_concurrent` each resolved file URL
appears at most once in the returned list, and the run only appends records
(the record created at the first encounter of a URL is what remains; a later
encounter is a no-op, never an overwrite — made formal by: across any two
fuels the shorter run's result list is a prefix of the longer's). -/
theorem claim_C1 (w : World) (seeds exts : List String) (S : Settings) (fuel : Nat) :
    ((crawl_requests_concurrent w seeds exts S fuel).map (fun f => f.url)).Nodup ∧
    ∀ f1 f2 : Nat, f1 ≤ f2 →
      crawl_requests_concurrent w seeds exts S f1 <+:
        crawl_requests_concurrent w seeds exts S f2 := by
  constructor
  · have hinv := crawlLoop_inv w S (exts.map (fun e => stripStr (lowerStr e))) fuel
      (initState w S seeds) (initState_inv w S seeds)
    show ((crawlLoop w S (exts.map (fun e => stripStr (lowerStr e))) fuel
      (initState w S seeds)).files.map (fun f => f.url)).Nodup
    rw [hinv.filesSeen]
    exact hinv.seenNodup
  · intro f1 f2 hle
    obtain ⟨k, rfl⟩ := Nat.exists_eq_add_of_le hle
    show (crawlLoop w S (exts.map (fun e => stripStr (lowerStr e))) f1
        (initState w S seeds)).files <+:
      (crawlLoop w S (exts.map (fun e => stripStr (lowerStr e))) (f1 + k)
        (initState w S seeds)).files
    rw [crawlLoop_add w S (exts.map (fun e => stripStr (lowerStr e))) f1 k
      (initState w S seeds)]
    exact crawlLoop_files_mono w S _ k _

/-- Witness for C1 on a concrete one-PDF site. -/
theorem claim_C1_witness :
    ((crawl_requests_concurrent pdfWorld ["http://a/s"] [".pdf"] basicPolicy 10).map
      (fun f => f.url)).Nodup ∧
    crawl_requests_concurrent pdfWorld ["http://a/s"] [".pdf"] basicPolicy 3 <+:
      crawl_requests_concurrent pdfWorld ["http://a/s"] [".pdf"] basicPolicy 10 :=
  ⟨(claim_C1 pdfWorld ["http://a/s"] [".pdf"] basicPolicy 10).1,
    (claim_C1 pdfWorld ["http://a/s"] [".pdf"] basicPolicy 10).2 3 10 (by decide)⟩

/-- Counterexample to C2 as stated: with `max_files = 0` — a non-negative
bound — the run still records one file, because the code checks the file
ceiling only after appending. -/
theorem claim_C2_counterexample :
    zeroFilesPolicy.max_files = 0 ∧
    ¬ ((crawlRun pdfWorld ["http://a/s"] [".pdf"] zeroFilesPolicy 10).files.length
        ≤ zeroFilesPolicy.max_files) := by
  decide

/-- C2 (amended): in every run, the depth of every dispatched page is ≤ the
policy's max depth and the number of pages processed is ≤ the policy's max
pages; the number of `DiscoveredFile` records is ≤ the policy's max files
whenever max files ≥ 1 (with max files = 0 a single record can still be
returned, since the ceiling is checked only after an append). -/
theorem claim_C2 (w : World) (seeds exts : List String) (S : Settings) (fuel : Nat) :
    (∀ p ∈ (crawlRun w seeds exts S fuel).fetchLog, (p.2 : Nat) ≤ S.max_depth) ∧
    (crawlRun w seeds exts S fuel).pages_done ≤ S.max_pages ∧
    (1 ≤ S.max_files → (crawlRun w seeds exts S fuel).files.length ≤ S.max_files) := by
  have hinv := crawlLoop_inv w S (exts.map (fun e => stripStr (lowerStr e))) fuel
    (initState w S seeds) (initState_inv w S seeds)
  refine ⟨hinv.fetchDepth, hinv.pagesLe, fun hM => ?_⟩
  show (crawlLoop w S (exts.map (fun e => stripStr (lowerStr e))) fuel
    (initState w S seeds)).files.length ≤ S.max_files
  have h9 := hinv.filesLe
  omega

/-- Witness for C2 on a concrete one-PDF site with comfortable bounds. -/
theorem claim_C2_witness :
    (("http://a/s", 0) : String × Nat)
        ∈ (crawlRun pdfWorld ["http://a/s"] [".pdf"] basicPolicy 10).fetchLog ∧
    ((("http://a/s", 0) : String × Nat).2 ≤ basicPolicy.max_depth) ∧
    (crawlRun pdfWorld ["http://a/s"] [".pdf"] basicPolicy 10).pages_done
      ≤ basicPolicy.max_pages ∧
    1 ≤ basicPolicy.max_files ∧
    (crawlRun pdfWorld ["http://a/s"] [".pdf"] basicPolicy 10).files.length
      ≤ basicPolicy.max_files :=
  ⟨by decide,
    (claim_C2 pdfWorld ["http://a/s"] [".pdf"] basicPolicy 10).1 _ (by decide),
    (claim_C2 pdfWorld ["http://a/s"] [".pdf"] basicPolicy 10).2.1,
    by decide,
    (claim_C2 pdfWorld ["http://a/s"] [".pdf"] basicPolicy 10).2.2 (by decide)⟩

/-- Counterexample to C3 as stated: in the `mixWorld` run, duplicate seeds
leave page budget after a partial batch, a later batch mixes depth-0 and
depth-1 pages, and the depth-1 page's completion arrives first — so a
depth-2 page is dispatched before a depth-1 page.  The sequence of dispatch
depths, `[0, 0, 0, 1, 2, 1]`, is not non-decreasing. -/
theorem claim_C3_counterexample :
    ¬ List.Sorted (· ≤ ·)
      ((crawlRun mixWorld mixSeeds [".pdf"] mixPolicy 20).fetchLog.map (fun p => p.2)) := by
  decide

/-- C3 (amended): in every run, every link is enqueued at exactly the depth
of its discovering page plus one — never at a lower depth — and every
dispatched page is a seed (depth 0) or was enqueued at its depth by a
dispatched discovering page; hence depth increases by exactly one per hop
along any traversal path.  However batches are NOT always processed in
non-decreasing depth order (see the counterexample): a batch may span two
depth levels and its discoveries are queued in completion order. -/
theorem claim_C3 (w : World) (seeds exts : List String) (S : Settings) (fuel : Nat) :
    (∀ q ∈ (crawlRun w seeds exts S fuel).enqueueLog, (q.2.2.2 : Nat) = q.2.1 + 1) ∧
    (∀ q ∈ (crawlRun w seeds exts S fuel).enqueueLog,
      ((q.1 : String), (q.2.1 : Nat)) ∈ (crawlRun w seeds exts S fuel).fetchLog) ∧
    (∀ p ∈ (crawlRun w seeds exts S fuel).fetchLog, (p.2 : Nat) = 0 ∨
      ∃ q ∈ (crawlRun w seeds exts S fuel).enqueueLog,
        q.2.2.1 = p.1 ∧ q.2.2.2 = p.2) := by
  have hinv := crawlLoop_inv w S (exts.map (fun e => stripStr (lowerStr e))) fuel
    (initState w S seeds) (initState_inv w S seeds)
  exact ⟨hinv.enqStep, hinv.enqSrc, hinv.fetchOrigin⟩

/-- Witness for C3 on the `mixWorld` run: the enqueue of `m` by page `p`
steps depth 1 → 2, page `p` itself was dispatched at depth 1, and the
depth-2 dispatch of `m` is justified by its enqueue record. -/
theorem claim_C3_witness :
    ((("http://a/p", 1, "http://a/m", 2) : String × Nat × String × Nat).2.2.2
        = (("http://a/p", 1, "http://a/m", 2) : String × Nat × String × Nat).2.1 + 1) ∧
    (("http://a/p", 1) : String × Nat)
        ∈ (crawlRun mixWorld mixSeeds [".pdf"] mixPolicy 20).fetchLog ∧
    (((("http://a/m", 2) : String × Nat).2 : Nat) = 0 ∨
      ∃ q ∈ (crawlRun mixWorld mixSeeds [".pdf"] mixPolicy 20).enqueueLog,
        q.2.2.1 = (("http://a/m", 2) : String × Nat).1 ∧
          q.2.2.2 = (("http://a/m", 2) : String × Nat).2) :=
  ⟨(claim_C3 mixWorld mixSeeds [".pdf"] mixPolicy 20).1
      ("http://a/p", 1, "http://a/m", 2) (by decide),
    (claim_C3 mixWorld mixSeeds [".pdf"] mixPolicy 20).2.1
      ("http://a/p", 1, "http://a/m", 2) (by decide),
    (claim_C3 mixWorld mixSeeds [".pdf"] mixPolicy 20).2.2 ("http://a/m", 2) (by decide)⟩

/-- C4: if the stop predicate answers true at every poll from the end of the
first iteration onward, the run's result list and dispatch log are exactly
those of the first iteration (results computed by the in-flight first batch
are incorporated, no new fetch is dispatched after the signal), no page at
depth ≥ 2 is ever fetched (in fact only depth-0 seeds are), and the run
returns normally — the model is a total function. -/
theorem claim_C4 (w : World) (seeds exts : List String) (S : Settings) (fuel : Nat)
    (hfuel : 1 ≤ fuel)
    (hstop : ∀ n, (firstIteration w S exts seeds).polls ≤ n → w.stop n = true) :
    (crawlRun w seeds exts S fuel).files = (firstIteration w S exts seeds).files ∧
    (crawlRun w seeds exts S fuel).fetchLog = (firstIteration w S exts seeds).fetchLog ∧
    (∀ p ∈ (crawlRun w seeds exts S fuel).fetchLog, (p.2 : Nat) < 2) := by
  obtain ⟨k, rfl⟩ : ∃ k, fuel = k + 1 := ⟨fuel - 1, by omega⟩
  have hrun : crawlRun w seeds exts S (k + 1)
      = crawlLoop w S (exts.map (fun e => stripStr (lowerStr e))) k
          (firstIteration w S exts seeds) := by
    show crawlLoop w S (exts.map (fun e => stripStr (lowerStr e))) (k + 1)
      (initState w S seeds) = _
    simp only [crawlLoop]
    rw [if_neg (by simp [initState])]
    rfl
  obtain ⟨a, b, _, _⟩ := crawlLoop_stopped w S
    (exts.map (fun e => stripStr (lowerStr e))) k (firstIteration w S exts seeds) hstop
  refine ⟨by rw [hrun]; exact a, by rw [hrun]; exact b, ?_⟩
  intro p hp
  rw [hrun, b] at hp
  rcases crawlStep_fetch w S (exts.map (fun e => stripStr (lowerStr e)))
      (initState w S seeds) p hp with h0 | ⟨e, he, hpe⟩
  · exact absurd h0 (by simp [initState])
  · simp only [initState, List.mem_map] at he
    obtain ⟨u, _, hu⟩ := he
    rw [hpe, ← hu]
    exact Nat.zero_lt_two

/-- Witness for C4: `stopWorld`'s predicate is already true at every poll,
so the run equals its first iteration's output. -/
theorem claim_C4_witness :
    (crawlRun stopWorld ["http://a/s"] [".pdf"] basicPolicy 5).files
      = (firstIteration stopWorld basicPolicy [".pdf"] ["http://a/s"]).files ∧
    (crawlRun stopWorld ["http://a/s"] [".pdf"] basicPolicy 5).fetchLog
      = (firstIteration stopWorld basicPolicy [".pdf"] ["http://a/s"]).fetchLog :=
  ⟨(claim_C4 stopWorld ["http://a/s"] [".pdf"] basicPolicy 5 (by decide)
      (fun _ _ => rfl)).1,
    (claim_C4 stopWorld ["http://a/s"] [".pdf"] basicPolicy 5 (by decide)
      (fun _ _ => rfl)).2.1⟩

/-- C5: in every run, each URL is probed at most once (the probe log has no
duplicates), and the cache stores, for every probed URL, exactly the
oracle's outcome for it — including a failed outcome (`none`) — which every
later encounter reuses. -/
theorem claim_C5 (w : World) (seeds exts : List String) (S : Settings) (fuel : Nat) :
    (crawlRun w seeds exts S fuel).probeLog.Nodup ∧
    ∀ pr ∈ (crawlRun w seeds exts S fuel).probe_cache, pr.2 = w.probe pr.1 := by
  have hinv := crawlLoop_inv w S (exts.map (fun e => stripStr (lowerStr e))) fuel
    (initState w S seeds) (initState_inv w S seeds)
  exact ⟨hinv.probeNodup, hinv.cacheSound⟩

/-- Witness for C5 on the probing run of `redirectWorld`. -/
theorem claim_C5_witness :
    (crawlRun redirectWorld ["http://a/s"] [".pdf"] redirectPolicy 10).probeLog.Nodup ∧
    (("http://a/download/1",
        some (⟨"http://b/f.pdf", "f.pdf", ".pdf"⟩ : ProbeResult)) : String × Option ProbeResult)
      ∈ (crawlRun redirectWorld ["http://a/s"] [".pdf"] redirectPolicy 10).probe_cache ∧
    some (⟨"http://b/f.pdf", "f.pdf", ".pdf"⟩ : ProbeResult)
      = redirectWorld.probe "http://a/download/1" :=
  ⟨(claim_C5 redirectWorld ["http://a/s"] [".pdf"] redirectPolicy 10).1,
    by decide,
    (claim_C5 redirectWorld ["http://a/s"] [".pdf"] redirectPolicy 10).2
      ("http://a/download/1", some (⟨"http://b/f.pdf", "f.pdf", ".pdf"⟩ : ProbeResult))
      (by decide)⟩

/-- C10: with same-domain-only enabled, the domain check applies to the link
as extracted, before probing: in this run a same-host download endpoint
(`http://a/download/1`, host `a`) probes to a different host and the
recorded `DiscoveredFile` carries the probe's resolved URL on host `b` —
the resolved URL is never re-checked against the same-domain policy. -/
theorem claim_C10 :
    crawl_requests_concurrent redirectWorld ["http://a/s"] [".pdf"] redirectPolicy 10
      = [{ select := false, file := "f.pdf", type := ".pdf",
           url := "http://b/f.pdf", source := "http://a/s" }] ∧
    redirectPolicy.same_domain_only = true ∧
    (urlparse "http://b/f.pdf").netloc ≠ (urlparse "http://a/s").netloc ∧
    (urlparse "http://a/download/1").netloc = (urlparse "http://a/s").netloc := by
  decide

/-- C6: `looks_like_download_endpoint` returns true for every URL whose
lowercased path contains a `/download/` segment or whose query string
carries one of the download-indicating parameter names (`download`,
`dlm_download`, `attachment_id`, `file`); in particular it is true for
`https://x.test/download/42/` and false for
`https://x.test/?dlm_download_category=excel` (a category listing). -/
theorem claim_C6 :
    looks_like_download_endpoint "https://x.test/download/42/" = true ∧
    looks_like_download_endpoint "https://x.test/?dlm_download_category=excel" = false ∧
    (∀ url : String, strContains (lowerStr (urlparse url).path) "/download/" = true →
      looks_like_download_endpoint url = true) ∧
    (∀ url : String,
      (qsHasKey (urlparse url).query "download" || qsHasKey (urlparse url).query "dlm_download" ||
        qsHasKey (urlparse url).query "attachment_id" || qsHasKey (urlparse url).query "file") = true →
      looks_like_download_endpoint url = true) := by
  refine ⟨by decide, by decide, ?_, ?_⟩
  · intro url h
    simp [looks_like_download_endpoint, h]
  · intro url h
    simp only [looks_like_download_endpoint]
    split
    · rfl
    · simp [h]

/-- Witness for C6: the universal parts applied at the path form
`https://x.test/download/42/` and the query form `https://x.test/?download=1`. -/
theorem claim_C6_witness :
    strContains (lowerStr (urlparse "https://x.test/download/42/").path) "/download/" = true ∧
    looks_like_download_endpoint "https://x.test/download/42/" = true ∧
    (qsHasKey (urlparse "https://x.test/?download=1").query "download" ||
      qsHasKey (urlparse "https://x.test/?download=1").query "dlm_download" ||
      qsHasKey (urlparse "https://x.test/?download=1").query "attachment_id" ||
      qsHasKey (urlparse "https://x.test/?download=1").query "file") = true ∧
    looks_like_download_endpoint "https://x.test/?download=1" = true :=
  ⟨by decide, claim_C6.2.2.1 "https://x.test/download/42/" (by decide),
    by decide, claim_C6.2.2.2 "https://x.test/?download=1" (by decide)⟩

/-- C7: `normalize_ext` is deterministic and depends only on the lowercased
URL path (hence case-insensitive and query-independent); it maps
`https://x.test/a/report.XLSX?x=1` to `.xlsx`, `https://x.test/page` to
`""`, and any URL whose path ends with no catalog extension to `""`. -/
theorem claim_C7 :
    normalize_ext "https://x.test/a/report.XLSX?x=1" = ".xlsx" ∧
    normalize_ext "https://x.test/page" = "" ∧
    (∀ u v : String, lowerStr (urlparse u).path = lowerStr (urlparse v).path →
      normalize_ext u = normalize_ext v) ∧
    (∀ url : String,
      (∀ ext ∈ DEFAULT_FILE_EXTS, endsWithStr (lowerStr (urlparse url).path) ext = false) →
      normalize_ext url = "") := by
  refine ⟨by decide, by decide, ?_, ?_⟩
  · intro u v h
    simp only [normalize_ext]
    rw [h]
  · intro url h
    simp only [normalize_ext]
    have : DEFAULT_FILE_EXTS.find?
        (fun ext => endsWithStr (lowerStr (urlparse url).path) ext) = none := by
      rw [List.find?_eq_none]
      intro x hx
      simp [h x hx]
    rw [this]

/-- Witness for C7: case-insensitivity applied at `/A` vs `/a`, and the
no-catalog-extension case applied at `https://x.test/page`. -/
theorem claim_C7_witness :
    lowerStr (urlparse "https://x.test/A").path = lowerStr (urlparse "https://x.test/a").path ∧
    normalize_ext "https://x.test/A" = normalize_ext "https://x.test/a" ∧
    normalize_ext "https://x.test/page" = "" :=
  ⟨by decide, claim_C7.2.2.1 "https://x.test/A" "https://x.test/a" (by decide),
    claim_C7.2.2.2 "https://x.test/page" (by decide)⟩

/-- A `probe_file` attempt returns nothing exactly when it is not a
successful response with a determinable extension. -/
theorem probeAttempt_none_iff (r : ReqOutcome) :
    probeAttemptResult r = none ↔ ¬ attemptYields r := by
  cases r with
  | exn => simp [probeAttemptResult, attemptYields]
  | resp s u h =>
    by_cases hs : s < 400
    · by_cases he : (guess_extension_from_headers u h).2 = ""
      · simp [probeAttemptResult, attemptYields, hs, he]
      · simp [probeAttemptResult, attemptYields, hs, he]
    · simp [probeAttemptResult, attemptYields, hs]

/-- Counterexample to C8 as stated: a HEAD outcome that neither fails nor
has an error status (a 200 response with no usable headers on an
extension-less URL) still makes `probe_file` fall back to the streamed GET. -/
theorem claim_C8_counterexample :
    probe_issues_get (ReqOutcome.resp 200 "https://x.test/page" {}) = true ∧
    spec_head_failed_or_error (ReqOutcome.resp 200 "https://x.test/page" {}) = false := by
  decide

/-- C8 (amended): `probe_file` falls back to the streamed GET exactly when
the HEAD attempt does not itself return a usable result — on an exception,
an error status, or a non-error response with no determinable extension —
and returns `none` precisely when neither the HEAD nor the GET attempt is a
non-error response with a determinable extension (Content-Disposition
filename, Content-Type mapping, or extension-from-path on the final URL). -/
theorem claim_C8 (head get : ReqOutcome) :
    (probe_issues_get head = true ↔ ¬ attemptYields head) ∧
    (probe_file head get = none ↔ ¬ attemptYields head ∧ ¬ attemptYields get) := by
  constructor
  · rw [probe_issues_get, Option.isNone_iff_eq_none, probeAttempt_none_iff]
  · cases hh : probeAttemptResult head with
    | some v =>
      have hy : attemptYields head := by
        by_contra hny
        rw [(probeAttempt_none_iff head).mpr hny] at hh
        exact Option.noConfusion hh
      simp only [probe_file, hh]
      simp [hy]
    | none =>
      simp only [probe_file, hh]
      rw [probeAttempt_none_iff]
      have hhy : ¬ attemptYields head := (probeAttempt_none_iff head).mp hh
      simp [hhy]

/-- Counterexample to C9 as stated: a 200 response whose Content-Type,
`text/xml`, is an XML document type still yields `none` — the code accepts
only content types containing `text/html`, so "returns the page text
otherwise" fails for XML documents. -/
theorem claim_C9_counterexample :
    fetch_html (FetchOutcome.resp 200 (some "text/xml") "<a/>") = none ∧
    spec_is_markup_content_type "text/xml" = true ∧ 200 < 400 := by
  decide

/-- C9 (amended): `fetch_html` returns the page text exactly for a
non-error-status response whose Content-Type contains `text/html`; every
other outcome — an exception, a status `≥ 400`, or any other Content-Type
(including XML document types and binary types) — yields `none`. -/
theorem claim_C9 (o : FetchOutcome) (t : String) :
    fetch_html o = some t ↔
      ∃ s ct, o = FetchOutcome.resp s ct t ∧ s < 400 ∧
        strContains (lowerStr (ct.getD "")) "text/html" = true := by
  cases o with
  | exn => simp [fetch_html]
  | resp s ct text =>
    simp only [fetch_html]
    by_cases hs : 400 ≤ s
    · rw [if_pos hs]
      constructor
      · intro hc; exact Option.noConfusion hc
      · rintro ⟨s', ct', heq, hlt, _⟩
        injection heq with h1 h2 h3
        omega
    · rw [if_neg hs]
      by_cases hct : strContains (lowerStr (ct.getD "")) "text/html" = true
      · rw [if_neg (by simp [hct])]
        constructor
        · intro h
          injection h with h1
          exact ⟨s, ct, by rw [h1], by omega, hct⟩
        · rintro ⟨s', ct', heq, _, _⟩
          injection heq with h1 h2 h3
          rw [h3]
      · have hf : strContains (lowerStr (ct.getD "")) "text/html" = false := by
          simpa using hct
        rw [if_pos (by simp [hf])]
        constructor
        · intro hc; exact Option.noConfusion hc
        · rintro ⟨s', ct', heq, _, hct'⟩
          injection heq with h1 h2 h3
          exact absurd (h2 ▸ hct') hct

end Scrapbee
